import Mathlib

/-!
Shallow embedding of the `markdown-utils` library (TypeScript sources in
`src/`), over `List Char` / `String`.  JavaScript regular expressions are
compiled by hand into executable scanners that reproduce the engine's
leftmost-match, alternative-order and greedy/lazy backtracking behaviour for
the concrete patterns appearing in the source.  `\s` is modelled as ASCII
whitespace (space, tab, newline, carriage return, vertical tab, form feed),
`\w` as `[A-Za-z0-9_]`, `\d` as ASCII digits; `String.prototype.toLowerCase`
is modelled on the ASCII range.  `Date` values are modelled as integers
(millisecond timestamps) and the host date parser (`new Date(string)`) is an
explicit parameter where a function uses it.
-/

namespace MdUtils

/-- ASCII model of the JS regex class `\s` (and of `String.prototype.trim`'s
whitespace). -/
def isWs (c : Char) : Bool :=
  c = ' ' || c = '\t' || c = '\n' || c = '\r' || c = '\x0b' || c = '\x0c'

/-- JS regex class `\w` = `[A-Za-z0-9_]`. -/
def isWordChar (c : Char) : Bool :=
  c.isAlphanum || c = '_'

/-- `[a-z]`. -/
def isLowerAz (c : Char) : Bool :=
  'a' ≤ c && c ≤ 'z'

/-- ASCII model of `String.prototype.toLowerCase` (JS lowercases the
A–Z range to a–z; other characters in our inputs are unaffected). -/
def jsToLower (c : Char) : Char :=
  if 'A' ≤ c ∧ c ≤ 'Z' then Char.ofNat (c.toNat + 32) else c

/-- `String.prototype.trim` on a character list: drop leading and trailing
whitespace. -/
def jsTrimL (l : List Char) : List Char :=
  ((l.dropWhile isWs).reverse.dropWhile isWs).reverse

/-- `String.prototype.trim`. -/
def jsTrim (s : String) : String :=
  String.mk (jsTrimL s.data)

/-- Substring test (used to state counterexamples about label occurrence and
to model `String.prototype.includes`). -/
def containsSub : List Char → List Char → Bool
  | _, [] => true
  | [], _ :: _ => false
  | c :: cs, pat => pat.isPrefixOf (c :: cs) || containsSub cs pat

/-- `String.prototype.includes`. -/
def containsSubS (s pat : String) : Bool :=
  containsSub s.data pat.data

/-- Split a character list at every occurrence of a character (JS
`String.prototype.split` with a single-character separator). -/
def splitOnChar (sep : Char) : List Char → List (List Char)
  | [] => [[]]
  | c :: cs =>
    let r := splitOnChar sep cs
    if c = sep then [] :: r
    else
      match r with
      | [] => [[c]]
      | b :: bs => (c :: b) :: bs

/-!
## Generic scanners

A JS global regex replace / exec loop walks the subject left to right; at each
position it attempts a match (for `m`-anchored patterns only at line starts),
on failure advances one character, on success emits the replacement (or the
captured value) and resumes right after the matched text.  The matcher
argument `f` receives a flag telling it whether the current position is a line
start, and the text from the current position; it returns the replacement
(resp. extracted value) together with `k` such that the match consumed `k + 1`
characters.  Fuel (initialised to the subject length) makes the recursion
structural, so all definitions evaluate by `decide`/`rfl`.
-/

/-- Was the character at index `k` (the last consumed one) a newline?  That
determines whether the position right after the match is a line start. -/
def nlAt (s : List Char) (k : Nat) : Bool :=
  match s.drop k with
  | '\n' :: _ => true
  | _ => false

/-- Global regex replace, fuelled core. -/
def scanReplGo (f : Bool → List Char → Option (List Char × Nat)) :
    Nat → Bool → List Char → List Char
  | 0, _, s => s
  | _ + 1, _, [] => []
  | fuel + 1, b, c :: cs =>
    match f b (c :: cs) with
    | some (rep, k) => rep ++ scanReplGo f fuel (nlAt (c :: cs) k) (cs.drop k)
    | none => c :: scanReplGo f fuel (c = '\n') cs

/-- Global regex replace over a whole subject (line start holds initially). -/
def scanRepl (f : Bool → List Char → Option (List Char × Nat)) (s : List Char) :
    List Char :=
  scanReplGo f s.length true s

/-- Global regex exec loop collecting one value per match, fuelled core. -/
def scanExtractGo {α : Type} (f : Bool → List Char → Option (α × Nat)) :
    Nat → Bool → List Char → List α
  | 0, _, _ => []
  | _ + 1, _, [] => []
  | fuel + 1, b, c :: cs =>
    match f b (c :: cs) with
    | some (v, k) => v :: scanExtractGo f fuel (nlAt (c :: cs) k) (cs.drop k)
    | none => scanExtractGo f fuel (c = '\n') cs

/-- Global regex exec loop over a whole subject. -/
def scanExtract {α : Type} (f : Bool → List Char → Option (α × Nat)) (s : List Char) :
    List α :=
  scanExtractGo f s.length true s

/-- Boolean regex test: does the pattern match at some position?  `t` receives
the line-start flag and the text from the current position. -/
def scanAnyGo (t : Bool → List Char → Bool) : Nat → Bool → List Char → Bool
  | 0, _, _ => false
  | _ + 1, _, [] => false
  | fuel + 1, b, c :: cs => t b (c :: cs) || scanAnyGo t fuel (c = '\n') cs

/-- Boolean regex test over a whole subject. -/
def scanAny (t : Bool → List Char → Bool) (s : List Char) : Bool :=
  scanAnyGo t s.length true s

/-!
## Links and images (`contentUtils.ts`)
-/

structure LinkRec where
  text : String
  url : String
  deriving DecidableEq, Repr

structure ImageRec where
  alt : String
  src : String
  title : Option String
  deriving DecidableEq, Repr

/-- Matcher for `\[([^\]]*)\]\(([^)]*)\)` at the current position: a literal
`[`, the (forced) run of non-`]` characters, `]`, then immediately `(`, the
run of non-`)` characters, `)`.  Returns text, url and `k` (consumed − 1). -/
def linkCore : List Char → Option (List Char × List Char × Nat)
  | [] => none
  | c :: rest =>
    if c = '[' then
      let txt := rest.takeWhile (· ≠ ']')
      match rest.dropWhile (· ≠ ']') with
      | _ :: e :: rest2 =>
        -- the dropped-to character is the first `]`; the next must be `(`
        if e = '(' then
          let url := rest2.takeWhile (· ≠ ')')
          match rest2.dropWhile (· ≠ ')') with
          | _ :: _ => some (txt, url, txt.length + url.length + 3)
          | [] => none
        else none
      | _ => none
    else none

/-- `extractLinks`'s per-match value. -/
def linkExtractF (_ : Bool) (s : List Char) : Option (LinkRec × Nat) :=
  match linkCore s with
  | some (txt, url, k) => some (⟨String.mk txt, String.mk url⟩, k)
  | none => none

/-- `extractLinks` (contentUtils.ts): global scan for
`\[([^\]]*)\]\(([^)]*)\)`; note the pattern has no guard against a preceding
`!`. -/
def extractLinks (markdownContent : String) : List LinkRec :=
  scanExtract linkExtractF markdownContent.data

/-- Matcher for the tail of `!\[([^\]]*)\]\(([^)]*?)(?:\s+"([^"]*)")?\)`:
given the text after `](`, try — at each (lazily grown) end of the `src`
capture — first the optional quoted-title group followed by `)`, then a bare
`)`, else extend `src` by one non-`)` character. -/
def imgTitleClose (l : List Char) : Option (List Char × List Char) :=
  let run := l.takeWhile isWs
  if run.isEmpty then none
  else
    match l.dropWhile isWs with
    | '"' :: rest =>
      let ttl := rest.takeWhile (· ≠ '"')
      match rest.dropWhile (· ≠ '"') with
      | '"' :: ')' :: rest2 => some (ttl, rest2)
      | _ => none
    | _ => none

def imgSrcLoop : List Char → List Char → Option (List Char × Option (List Char) × List Char)
  | _, [] => none
  | acc, c :: rest =>
    match imgTitleClose (c :: rest) with
    | some (ttl, rest2) => some (acc.reverse, some ttl, rest2)
    | none =>
      if c = ')' then some (acc.reverse, none, rest)
      else imgSrcLoop (c :: acc) rest

/-- Matcher for `extractImages`'s pattern
`!\[([^\]]*)\]\(([^)]*?)(?:\s+"([^"]*)")?\)`. -/
def imageTitleF (_ : Bool) (s : List Char) : Option (ImageRec × Nat) :=
  match s with
  | '!' :: '[' :: rest =>
    let alt := rest.takeWhile (· ≠ ']')
    match rest.dropWhile (· ≠ ']') with
    | ']' :: '(' :: rest2 =>
      match imgSrcLoop [] rest2 with
      | some (src, ttl, rest3) =>
        -- `title: match[3] || undefined`: an empty capture becomes undefined.
        let title : Option String :=
          match ttl with
          | some t => if t.isEmpty then none else some (String.mk t)
          | none => none
        some (⟨String.mk alt, String.mk src, title⟩, s.length - rest3.length - 1)
      | none => none
    | _ => none
  | _ => none

/-- `extractImages` (contentUtils.ts). -/
def extractImages (markdownContent : String) : List ImageRec :=
  scanExtract imageTitleF markdownContent.data

/-!
## `stripMarkdown` (contentUtils.ts): thirteen sequential replacements
-/

/-- Index of the first occurrence of `pat` (used for the lazy interior of
`` ```[\s\S]*?``` ``). -/
def findIdxSub (pat : List Char) : List Char → Option Nat
  | [] => if pat.isEmpty then some 0 else none
  | c :: cs =>
    if pat.isPrefixOf (c :: cs) then some 0
    else (findIdxSub pat cs).map (· + 1)

/-- Index of the last `'\n'` in a list (backtracking target of a greedy `\s*`
followed by `\n`). -/
def lastNlIdx : List Char → Option Nat
  | [] => none
  | c :: cs =>
    match lastNlIdx cs with
    | some i => some (i + 1)
    | none => if c = '\n' then some 0 else none

/-- Index of the last element satisfying `p`. -/
def lastIdxSat (p : Char → Bool) : List Char → Option Nat
  | [] => none
  | c :: cs =>
    match lastIdxSat p cs with
    | some i => some (i + 1)
    | none => if p c then some 0 else none

/-- `^#{1,6}\s+` (gm, replace by `''`): at a line start, one to six `#`
(seven or more backtrack to failure), then a greedy whitespace run. -/
def mdHeadingMarkF (b : Bool) (s : List Char) : Option (List Char × Nat) :=
  if !b then none
  else
    let hs := s.takeWhile (· = '#')
    if hs.length < 1 || 6 < hs.length then none
    else
      let run := (s.drop hs.length).takeWhile isWs
      if run.isEmpty then none
      else some ([], hs.length + run.length - 1)

/-- `\*\*([^*]*)\*\*` (g, replace by `$1`). -/
def boldF (_ : Bool) (s : List Char) : Option (List Char × Nat) :=
  match s with
  | '*' :: '*' :: rest =>
    let cap := rest.takeWhile (· ≠ '*')
    match rest.dropWhile (· ≠ '*') with
    | '*' :: '*' :: _ => some (cap, cap.length + 3)
    | _ => none
  | _ => none

/-- `\*([^*]*)\*` (g, replace by `$1`). -/
def italicF (_ : Bool) (s : List Char) : Option (List Char × Nat) :=
  match s with
  | '*' :: rest =>
    let cap := rest.takeWhile (· ≠ '*')
    match rest.dropWhile (· ≠ '*') with
    | '*' :: _ => some (cap, cap.length + 1)
    | _ => none
  | _ => none

/-- `~~([^~]*)~~` (g, replace by `$1`). -/
def strikeF (_ : Bool) (s : List Char) : Option (List Char × Nat) :=
  match s with
  | '~' :: '~' :: rest =>
    let cap := rest.takeWhile (· ≠ '~')
    match rest.dropWhile (· ≠ '~') with
    | '~' :: '~' :: _ => some (cap, cap.length + 3)
    | _ => none
  | _ => none

/-- `` `([^`]*)` `` (g, replace by `$1`). -/
def inlineCodeUnwrapF (_ : Bool) : List Char → Option (List Char × Nat)
  | [] => none
  | c :: rest =>
    if c = '`' then
      let cap := rest.takeWhile (· ≠ '`')
      match rest.dropWhile (· ≠ '`') with
      | _ :: _ => some (cap, cap.length + 1)  -- the dropped-to char is the closing backtick
      | [] => none
    else none

/-- `` `[^`]*` `` (g, replace by `''`; `getFirstParagraph` drops inline code
entirely). -/
def inlineCodeDropF (b : Bool) (s : List Char) : Option (List Char × Nat) :=
  match inlineCodeUnwrapF b s with
  | some (_, k) => some ([], k)
  | none => none

/-- `` ```[\s\S]*?``` `` (g, replace by `''`): lazy interior, so the closing
fence is the first later occurrence of three backticks. -/
def codeBlockF (_ : Bool) (s : List Char) : Option (List Char × Nat) :=
  match s with
  | '`' :: '`' :: '`' :: rest =>
    match findIdxSub ['`', '`', '`'] rest with
    | some i => some ([], i + 5)
    | none => none
  | _ => none

/-- `\[([^\]]*)\]\([^)]*\)` (g, replace by `$1`). -/
def linkUnwrapF (_ : Bool) (s : List Char) : Option (List Char × Nat) :=
  match linkCore s with
  | some (txt, _, k) => some (txt, k)
  | none => none

/-- `!\[([^\]]*)\]\([^)]*\)` (g, replace by `$1`); also the image pattern of
`validateMarkdownImages` / the `imageCount` statistic (no title group). -/
def imageSimpleCore (s : List Char) : Option (List Char × List Char × Nat) :=
  match s with
  | '!' :: rest0 =>
    match linkCore rest0 with
    | some (alt, src, k) => some (alt, src, k + 1)
    | none => none
  | _ => none

def imageUnwrapF (_ : Bool) (s : List Char) : Option (List Char × Nat) :=
  match imageSimpleCore s with
  | some (alt, _, k) => some (alt, k)
  | _ => none

/-- `^\s*[-*+]\s+` (gm, replace by `''`): the marker is forced to be the first
non-whitespace character after the line start. -/
def listMarkF (b : Bool) (s : List Char) : Option (List Char × Nat) :=
  if !b then none
  else
    let run := s.takeWhile isWs
    match s.dropWhile isWs with
    | m :: rest =>
      if m = '-' || m = '*' || m = '+' then
        let run2 := rest.takeWhile isWs
        if run2.isEmpty then none
        else some ([], run.length + run2.length)
      else none
    | [] => none

/-- `^\s*\d+\.\s+` (gm, replace by `''`). -/
def numListF (b : Bool) (s : List Char) : Option (List Char × Nat) :=
  if !b then none
  else
    let run := s.takeWhile isWs
    let after := s.dropWhile isWs
    let digits := after.takeWhile Char.isDigit
    if digits.isEmpty then none
    else
      match after.dropWhile Char.isDigit with
      | '.' :: rest =>
        let run2 := rest.takeWhile isWs
        if run2.isEmpty then none
        else some ([], run.length + digits.length + run2.length)
      | _ => none

/-- `^\s*>\s+` (gm, replace by `''`). -/
def quoteF (b : Bool) (s : List Char) : Option (List Char × Nat) :=
  if !b then none
  else
    let run := s.takeWhile isWs
    match s.dropWhile isWs with
    | '>' :: rest =>
      let run2 := rest.takeWhile isWs
      if run2.isEmpty then none
      else some ([], run.length + run2.length)
    | _ => none

/-- `\n\s*\n` (g, replace by `'\n'`): a newline whose following whitespace run
contains another newline; greedy `\s*` backtracks to the last such newline. -/
def collapseNlF (_ : Bool) (s : List Char) : Option (List Char × Nat) :=
  match s with
  | '\n' :: rest =>
    match lastNlIdx (rest.takeWhile isWs) with
    | some i => some (['\n'], i + 1)
    | none => none
  | _ => none

def removeHeadingMarkers (l : List Char) : List Char := scanRepl mdHeadingMarkF l
def removeBold (l : List Char) : List Char := scanRepl boldF l
def removeItalic (l : List Char) : List Char := scanRepl italicF l
def removeStrike (l : List Char) : List Char := scanRepl strikeF l
def removeInlineCode (l : List Char) : List Char := scanRepl inlineCodeUnwrapF l
def removeCodeBlocks (l : List Char) : List Char := scanRepl codeBlockF l
def removeLinksKeepText (l : List Char) : List Char := scanRepl linkUnwrapF l
def removeImagesKeepAlt (l : List Char) : List Char := scanRepl imageUnwrapF l
def removeListMarkers (l : List Char) : List Char := scanRepl listMarkF l
def removeNumListMarkers (l : List Char) : List Char := scanRepl numListF l
def removeBlockquoteMarkers (l : List Char) : List Char := scanRepl quoteF l
def collapseBlankLines (l : List Char) : List Char := scanRepl collapseNlF l

/-- `stripMarkdown` (contentUtils.ts): the thirteen replacements in source
order — note the inline-code rule runs *before* the fenced-code rule. -/
def stripMarkdownL (l : List Char) : List Char :=
  jsTrimL (collapseBlankLines (removeBlockquoteMarkers (removeNumListMarkers
    (removeListMarkers (removeImagesKeepAlt (removeLinksKeepText
      (removeCodeBlocks (removeInlineCode (removeStrike (removeItalic
        (removeBold (removeHeadingMarkers l))))))))))))

def stripMarkdown (markdownContent : String) : String :=
  String.mk (stripMarkdownL markdownContent.data)

/-!
## `getFirstParagraph` (contentUtils.ts)
-/

/-- `^#{1,6}\s+.*$` (gm, replace by `''`): heading-line removal including the
text; the greedy `\s+` may cross newlines, `(.*)` then runs to the line end. -/
def headingLineDropF (b : Bool) (s : List Char) : Option (List Char × Nat) :=
  if !b then none
  else
    let hs := s.takeWhile (· = '#')
    if hs.length < 1 || 6 < hs.length then none
    else
      let rest := s.drop hs.length
      let run := rest.takeWhile isWs
      if run.isEmpty then none
      else
        let after := rest.dropWhile isWs
        let text := after.takeWhile (· ≠ '\n')
        some ([], hs.length + run.length + text.length - 1)

def removeHeadingLines (l : List Char) : List Char := scanRepl headingLineDropF l
def removeInlineCodeDrop (l : List Char) : List Char := scanRepl inlineCodeDropF l

/-- `split(/\n\s*\n/)`: cut the subject at every match of the blank-line
separator (same match shape as `collapseNlF`). -/
def splitBlanksGo : Nat → List Char → List Char → List (List Char)
  | 0, acc, s => [acc.reverse ++ s]
  | _ + 1, acc, [] => [acc.reverse]
  | fuel + 1, acc, c :: cs =>
    if c = '\n' then
      match lastNlIdx (cs.takeWhile isWs) with
      | some i => acc.reverse :: splitBlanksGo fuel [] (cs.drop (i + 1))
      | none => splitBlanksGo fuel (c :: acc) cs
    else splitBlanksGo fuel (c :: acc) cs

def splitBlanks (l : List Char) : List (List Char) :=
  splitBlanksGo l.length [] l

/-- The `cleaned` value of `getFirstParagraph`: six replacements (headings,
fenced code, inline code, bold, italic, links) then `trim`. -/
def firstParagraphCleaned (l : List Char) : List Char :=
  jsTrimL (removeLinksKeepText (removeItalic (removeBold
    (removeInlineCodeDrop (removeCodeBlocks (removeHeadingLines l))))))

/-- The paragraph blocks `getFirstParagraph` chooses from. -/
def paragraphBlocks (markdownContent : String) : List String :=
  (splitBlanks (firstParagraphCleaned markdownContent.data)).map String.mk

/-- `getFirstParagraph` (contentUtils.ts):
`paragraphs.find(p => p.trim().length > 0) || ''` — the found block is
returned as is, not trimmed. -/
def getFirstParagraph (markdownContent : String) : String :=
  ((paragraphBlocks markdownContent).find? (fun p => !(jsTrimL p.data).isEmpty)).getD ""

/-!
## `getAllHeadings` (contentUtils.ts)
-/

structure Heading where
  level : Nat
  text : String
  anchor : String
  deriving DecidableEq, Repr

/-- `^(#{1,6})\s+(.*)$` (gm): like `headingLineDropF` but capturing the level
and the text (`(.*)` may be empty, so no backtracking is ever needed). -/
def headingAllF (b : Bool) (s : List Char) : Option ((Nat × List Char) × Nat) :=
  if !b then none
  else
    let hs := s.takeWhile (· = '#')
    if hs.length < 1 || 6 < hs.length then none
    else
      let rest := s.drop hs.length
      let run := rest.takeWhile isWs
      if run.isEmpty then none
      else
        let after := rest.dropWhile isWs
        let text := after.takeWhile (· ≠ '\n')
        some ((hs.length, text), hs.length + run.length + text.length - 1)

/-- Collapse whitespace runs to single hyphens: `replace(/\s+/g, '-')`. -/
def wsToHyphen : List Char → List Char
  | [] => []
  | [c] => if isWs c then ['-'] else [c]
  | c1 :: c2 :: rest =>
    if isWs c1 ∧ isWs c2 then wsToHyphen (c2 :: rest)
    else (if isWs c1 then '-' else c1) :: wsToHyphen (c2 :: rest)

/-- Anchor derivation: lowercase, drop `[^\w\s-]`, whitespace runs to `-`. -/
def anchorOf (text : List Char) : List Char :=
  wsToHyphen ((text.map jsToLower).filter (fun c => isWordChar c || isWs c || c = '-'))

/-- `getAllHeadings` (contentUtils.ts): every match is consumed, but a heading
is recorded only when its level is within `maxLevel`. -/
def getAllHeadings (markdownContent : String) (maxLevel : Nat := 6) : List Heading :=
  (scanExtract headingAllF markdownContent.data).filterMap fun lt =>
    if lt.1 ≤ maxLevel then
      let t := jsTrimL lt.2
      some ⟨lt.1, String.mk t, String.mk (anchorOf t)⟩
    else none

/-!
## Path utilities (`pathUtils.ts`, provided as `src/unnamed/part_003`)
-/

/-- `normalizePath`: `path.replace(/\\/g, '/')`. -/
def normalizePath (path : String) : String :=
  String.mk (path.data.map fun c => if c = '\\' then '/' else c)

/-- A character allowed inside the extension part `[^/.]+`. -/
def extChar (c : Char) : Bool :=
  c ≠ '.' && c ≠ '/'

/-- `replace(/\.[^/.]+$/, '')`: drop a final `.ext` whose `ext` is nonempty
and free of `.` and `/`. -/
def removeExtension (l : List Char) : List Char :=
  let r := l.reverse
  match r.dropWhile extChar, r.takeWhile extChar with
  | '.' :: rr, _ :: _ => rr.reverse
  | _, _ => l

/-- The extension removed by `removeExtension` (empty when there is none), so
that `removeExtension l ++ extensionOf l = l`. -/
def extensionOf (l : List Char) : List Char :=
  let r := l.reverse
  match r.dropWhile extChar, r.takeWhile extChar with
  | '.' :: _, _ :: _ => '.' :: (r.takeWhile extChar).reverse
  | _, _ => []

/-- The extension of a filename as a string. -/
def extensionOfS (filename : String) : String :=
  String.mk (extensionOf filename.data)

/-- Characters kept by `replace(/[^a-z0-9\s-]/g, '')`. -/
def keepSlug (c : Char) : Bool :=
  isLowerAz c || c.isDigit || isWs c || c = '-'

/-- Collapse runs of hyphens to a single hyphen (the `-+` → `-` rule). -/
def collapseHyphens : List Char → List Char
  | [] => []
  | [c] => [c]
  | c1 :: c2 :: rest =>
    if c1 = '-' ∧ c2 = '-' then collapseHyphens (c2 :: rest)
    else c1 :: collapseHyphens (c2 :: rest)

/-- `filenameToSlug` (pathUtils.ts) on a character list: drop the extension,
lowercase, `_`→`-`, drop `[^a-z0-9\s-]`, whitespace runs→`-`, collapse `-`
runs, trim. -/
def filenameToSlugL (l : List Char) : List Char :=
  jsTrimL (collapseHyphens (wsToHyphen
    (((removeExtension l).map jsToLower).map (fun c => if c = '_' then '-' else c)
      |>.filter keepSlug)))

def filenameToSlug (filename : String) : String :=
  String.mk (filenameToSlugL filename.data)

/-- Leftmost position where `pat` occurs with no `\n` strictly before it
(the `^.*?pat` search of `getRelativePath`; `.` cannot cross a newline);
returns the text after the occurrence. -/
def findOcc (s pat : List Char) : Option (List Char) :=
  if pat.isPrefixOf s then some (s.drop pat.length)
  else
    match s with
    | [] => none
    | '\n' :: _ => none
    | _ :: cs => findOcc cs pat

/-- `getRelativePath` (pathUtils.ts): normalize separators; strip a leading
`base` prefix, else strip through the first `base/` segment occurrence, else
fall back to the *normalized* path (`relativePath || normalizedPath`). -/
def getRelativePath (filePath baseFolderName : String) : String :=
  let normalizedPath := (normalizePath filePath).data
  let normalizedBase := (normalizePath baseFolderName).data
  if normalizedBase.isPrefixOf normalizedPath then
    -- `substring(normalizedBase.length).replace(/^\//, '')`
    match normalizedPath.drop normalizedBase.length with
    | '/' :: rest => String.mk rest
    | rest => String.mk rest
  else
    match findOcc normalizedPath (normalizedBase ++ ['/']) with
    | some rest => if rest.isEmpty then String.mk normalizedPath else String.mk rest
    | none => String.mk normalizedPath

/-!
## Date utilities (`dateUtils.ts`)
-/

/-- Dates are modelled by their millisecond timestamp. -/
abbrev JsDate := Int

/-- `getMostRecentDate` (dateUtils.ts), polymorphic in the date
representation so that "which argument is returned" is observable:
`updatedAt.getTime() > createdAt.getTime() ? updatedAt : createdAt`. -/
def getMostRecentDate {α : Type} (getTime : α → JsDate) :
    Option α → Option α → Option α
  | none, none => none
  | none, some updatedAt => some updatedAt
  | some createdAt, none => some createdAt
  | some createdAt, some updatedAt =>
    if getTime updatedAt > getTime createdAt then some updatedAt else some createdAt

/-- The alternatives of `getCreationDate`'s pattern, in source order; the
optional colon of `\*\*Date:?\*\*` is expanded greedily (colon first).  Note
the final alternative is a lone space. -/
def creationLabels : List (List Char) :=
  ["**Date:**".data, "**Date**".data, "Date:".data, "Created:".data,
   "Created At:".data, "Created On:".data, "Created Date:".data,
   "Created Time:".data, "Created At".data, "Created On".data,
   "Created Date".data, "Created Time".data, "Date ".data,
   " Date Created: ".data, " Date Created ".data, " Date Created On ".data,
   " Date Created At ".data, " Date Created On: ".data,
   " Date Created Time ".data, " ".data]

/-- Try the alternatives at the current position: a label, then a literal
space, then the lazy capture `(.+?)(?:\n|$)` — the rest of the line, at least
one character. -/
def creationLabelAt (s : List Char) : List (List Char) → Option (List Char)
  | [] => none
  | lab :: labs =>
    if lab.isPrefixOf s then
      match s.drop lab.length with
      | ' ' :: rest =>
        let cap := rest.takeWhile (· ≠ '\n')
        if cap.isEmpty then creationLabelAt s labs else some cap
      | _ => creationLabelAt s labs
    else creationLabelAt s labs

/-- Leftmost match of `getCreationDate`'s pattern, returning the capture. -/
def creationMatch : List Char → Option (List Char)
  | [] => none
  | c :: cs =>
    match creationLabelAt (c :: cs) creationLabels with
    | some cap => some cap
    | none => creationMatch cs

/-- `getCreationDate` (dateUtils.ts): the host date parser (`new Date`) is an
explicit parameter; the trimmed capture is parsed, `NaN` becoming `none`. -/
def getCreationDate (parse : String → Option JsDate) (content : String) :
    Option JsDate :=
  match creationMatch content.data with
  | none => none
  | some cap => parse (String.mk (jsTrimL cap))

/-- Modelled from the spec: the "general-purpose date parser" backing
`new Date(string)` is host functionality, not part of this repository; this
concrete instance accepts ISO `YYYY-MM-DD` strings (a format the host parser
certainly accepts) and rejects everything else, encoding the date as
`yyyymmdd`.  It is used only to instantiate theorems at concrete inputs. -/
def isoParse (s : String) : Option JsDate :=
  match s.data with
  | [y1, y2, y3, y4, '-', m1, m2, '-', d1, d2] =>
    if y1.isDigit && y2.isDigit && y3.isDigit && y4.isDigit &&
       m1.isDigit && m2.isDigit && d1.isDigit && d2.isDigit then
      let num := fun (c : Char) => (c.toNat - 48 : Int)
      let y := num y1 * 1000 + num y2 * 100 + num y3 * 10 + num y4
      let m := num m1 * 10 + num m2
      let d := num d1 * 10 + num d2
      if 1 ≤ m ∧ m ≤ 12 ∧ 1 ≤ d ∧ d ≤ 31 then some (y * 10000 + m * 100 + d)
      else none
    else none
  | _ => none

/-!
## Validation utilities (`validationUtils.ts`)
-/

/-- `.+$` at the current position (multiline `$`): at least one non-newline
character; after the greedy run the engine is at a line end, so the test
reduces to "the next character exists and is not a newline". -/
def dotPlusEol (l : List Char) : Bool :=
  match l with
  | c :: _ => c ≠ '\n'
  | [] => false

/-- `\s+.+$` at the current position: a nonempty whitespace prefix (of any
length, by backtracking) followed by a `.+$` match. -/
def wsPlusThenDotEol : List Char → Bool
  | [] => false
  | c :: rest => isWs c && (dotPlusEol rest || wsPlusThenDotEol rest)

/-- Test for `^#{1,6}\s+.+$` (m) at the current position. -/
def headingTestAt (b : Bool) (s : List Char) : Bool :=
  b &&
    (let hs := s.takeWhile (· = '#')
     1 ≤ hs.length && hs.length ≤ 6 && wsPlusThenDotEol (s.drop hs.length))

/-- Test for `(\*\*.*\*\*|\*.*\*|` + "`" + `.*` + "`" +
`|\[.*\]\(.*\)|^[-*+]\s+)` (m) at the current position: each alternative is
confined to the current line (`.` does not match a newline). -/
def mdSyntaxAt (b : Bool) (s : List Char) : Bool :=
  (match s with
   | '*' :: '*' :: rest => containsSub (rest.takeWhile (· ≠ '\n')) ['*', '*']
   | _ => false) ||
  (match s with
   | '*' :: rest => (rest.takeWhile (· ≠ '\n')).contains '*'
   | _ => false) ||
  (match s with
   | '`' :: rest => (rest.takeWhile (· ≠ '\n')).contains '`'
   | _ => false) ||
  (match s with
   | '[' :: rest =>
     let line := rest.takeWhile (· ≠ '\n')
     match findIdxSub [']', '('] line with
     | some i => (line.drop (i + 2)).contains ')'
     | none => false
   | _ => false) ||
  (b && (match s with
         | m :: c :: _ => (m = '-' || m = '*' || m = '+') && isWs c
         | _ => false))

/-- `isValidMarkdown` (validationUtils.ts). -/
def isValidMarkdown (content : String) : Bool :=
  if content.data.isEmpty then false
  else
    let hasHeadings := scanAny headingTestAt content.data
    let hasText := !(jsTrimL content.data).isEmpty
    let hasMarkdownSyntax := scanAny mdSyntaxAt content.data
    hasText && (hasHeadings || hasMarkdownSyntax || content.data.length > 10)

structure FrontmatterResult where
  isValid : Bool
  frontmatter : Option (List (String × String))
  content : Option String
  error : Option String
  deriving DecidableEq, Repr

/-- Closing separator `\n---\s*\n` at the current position; returns the text
after it (the greedy `\s*` backtracks to the last newline of the run). -/
def fmInnerSep (l : List Char) : Option (List Char) :=
  match l with
  | '\n' :: '-' :: '-' :: '-' :: r1 =>
    match lastNlIdx (r1.takeWhile isWs) with
    | some k => some (r1.drop (k + 1))
    | none => none
  | _ => none

/-- Lazily search for the closing separator, accumulating the group-1 text. -/
def fmScanMid : Nat → List Char → List Char → Option (List Char × List Char)
  | 0, _, _ => none
  | _ + 1, _, [] => none
  | fuel + 1, acc, c :: cs =>
    match fmInnerSep (c :: cs) with
    | some cont => some (acc.reverse, cont)
    | none => fmScanMid fuel (c :: acc) cs

/-- Indices of newlines in a list, in descending order (the backtracking
order of a greedy `\s*` that must end at a newline). -/
def nlIndicesDesc (l : List Char) : List Nat :=
  ((l.enum.filter (fun p => p.2 = '\n')).map (·.1)).reverse

/-- Match `^---\s*\n([\s\S]*?)\n---\s*\n([\s\S]*)$`: returns the frontmatter
text (group 1) and the markdown content (group 2). -/
def fmMatch (l : List Char) : Option (List Char × List Char) :=
  match l with
  | '-' :: '-' :: '-' :: r0 =>
    (nlIndicesDesc (r0.takeWhile isWs)).findSome? fun j =>
      let mid0 := r0.drop (j + 1)
      fmScanMid mid0.length [] mid0
  | _ => none

/-- Strip one leading and one trailing quote: `replace(/^["']|["']$/g, '')`. -/
def stripQuotes (v : List Char) : List Char :=
  let isQ := fun (c : Char) => c = '"' || c = '\''
  let v1 := match v with
    | c :: cs => if isQ c then cs else v
    | [] => v
  match v1.reverse with
  | c :: cs => if isQ c then cs.reverse else v1
  | [] => v1

/-- JS object insertion: later assignments to an existing key overwrite. -/
def fmUpsert (m : List (String × String)) (k v : String) : List (String × String) :=
  if m.any (·.1 = k) then m.map (fun p => if p.1 = k then (k, v) else p)
  else m ++ [(k, v)]

/-- The simplified YAML parse of `validateFrontmatter`'s `try` block. -/
def parseFm (fmText : List Char) : List (String × String) :=
  (splitOnChar '\n' fmText).foldl
    (fun m line =>
      if (jsTrimL line).isEmpty then m
      else
        match line.findIdx? (· = ':') with
        | none => m
        | some colonIndex =>
          let key := String.mk (jsTrimL (line.take colonIndex))
          let value := jsTrimL (line.drop (colonIndex + 1))
          fmUpsert m key (String.mk (stripQuotes value)))
    []

/-- `validateFrontmatter` (validationUtils.ts).  The `try` body is total
string processing, so the `catch` branch is unreachable: both result shapes
carry `isValid := true`. -/
def validateFrontmatter (content : String) : FrontmatterResult :=
  match fmMatch content.data with
  | none => ⟨true, none, some content, none⟩
  | some (fmText, md) => ⟨true, some (parseFm fmText), some (String.mk md), none⟩

/-- Character classes of the external-URL pattern
`^https?:\/\/(www\.)?[-a-zA-Z0-9@:%._\+~#=]{1,256}\.[a-zA-Z0-9()]{1,6}\b([-a-zA-Z0-9()@:%_\+.~#?&\/\/=]*)$`. -/
def urlClassA (c : Char) : Bool :=
  c.isAlphanum || c = '-' || c = '@' || c = ':' || c = '%' || c = '.' ||
    c = '_' || c = '+' || c = '~' || c = '#' || c = '='

def urlClassB (c : Char) : Bool :=
  c.isAlphanum || c = '(' || c = ')'

def urlClassC (c : Char) : Bool :=
  c.isAlphanum || c = '-' || c = '(' || c = ')' || c = '@' || c = ':' ||
    c = '%' || c = '_' || c = '+' || c = '.' || c = '~' || c = '#' ||
    c = '?' || c = '&' || c = '/' || c = '='

/-- `\.[a-zA-Z0-9()]{1,6}\b(classC*)$` after the class-A body: existence over
the 1–6 possible lengths, with a word boundary after the class-B run. -/
def urlTailB (u : List Char) : Bool :=
  (List.range 6).any fun j0 =>
    let j := j0 + 1
    decide (j ≤ u.length) && (u.take j).all urlClassB &&
      (let leftWord := match u.get? (j - 1) with
        | some c => isWordChar c
        | none => false
       let rightWord := match (u.drop j).head? with
        | some c => isWordChar c
        | none => false
       (leftWord != rightWord) && (u.drop j).all urlClassC)

/-- `[-a-zA-Z0-9@:%._\+~#=]{1,256}\.` then the class-B tail: existence over
the 1–256 possible body lengths. -/
def urlBodyA (t : List Char) : Bool :=
  (List.range 256).any fun i0 =>
    let i := i0 + 1
    (t.take i).length = i && (t.take i).all urlClassA &&
      t.get? i = some '.' && urlTailB (t.drop (i + 1))

/-- The full external-URL test used by `validateMarkdownLinks` and
`validateMarkdownImages`. -/
def urlPatternTest (url : List Char) : Bool :=
  if ("https://".data).isPrefixOf url then
    let t := url.drop 8
    (("www.".data).isPrefixOf t && urlBodyA (t.drop 4)) || urlBodyA t
  else if ("http://".data).isPrefixOf url then
    let t := url.drop 7
    (("www.".data).isPrefixOf t && urlBodyA (t.drop 4)) || urlBodyA t
  else false

structure LinkCheck where
  text : String
  url : String
  isValid : Bool
  error : Option String
  deriving DecidableEq, Repr

/-- `validateMarkdownLinks` (validationUtils.ts). -/
def validateMarkdownLinks (content : String) : List LinkCheck :=
  (scanExtract linkExtractF content.data).map fun r =>
    let url := r.url.data
    if url.isEmpty || (jsTrimL url).isEmpty then
      ⟨r.text, r.url, false, some "Empty URL"⟩
    else if ("http://".data).isPrefixOf url || ("https://".data).isPrefixOf url then
      if urlPatternTest url then ⟨r.text, r.url, true, none⟩
      else ⟨r.text, r.url, false, some "Invalid URL format"⟩
    else if url.head? = some '#' then
      if url.length = 1 then ⟨r.text, r.url, false, some "Empty anchor"⟩
      else ⟨r.text, r.url, true, none⟩
    else if url.head? = some '/' || containsSub url ['.'] then
      if containsSub url ['.', '.'] && containsSub url ['.', '/'] then
        ⟨r.text, r.url, false, some "Potentially unsafe relative path"⟩
      else ⟨r.text, r.url, true, none⟩
    else ⟨r.text, r.url, true, none⟩

structure ImageCheck where
  alt : String
  src : String
  isValid : Bool
  error : Option String
  deriving DecidableEq, Repr

/-- Value extractor for the title-less image pattern
`!\[([^\]]*)\]\(([^)]*)\)`. -/
def imageSimpleExtractF (_ : Bool) (s : List Char) :
    Option ((String × String) × Nat) :=
  match imageSimpleCore s with
  | some (alt, src, k) => some ((String.mk alt, String.mk src), k)
  | none => none

/-- `validateMarkdownImages` (validationUtils.ts): the alt check runs first,
then the src checks may overwrite the error while keeping `isValid` false. -/
def validateMarkdownImages (content : String) : List ImageCheck :=
  (scanExtract imageSimpleExtractF content.data).map fun r =>
    let alt := r.1.data
    let src := r.2.data
    let v1 : Bool × Option String :=
      if alt.isEmpty || (jsTrimL alt).isEmpty then (false, some "Missing alt text")
      else (true, none)
    if src.isEmpty || (jsTrimL src).isEmpty then
      ⟨r.1, r.2, false, some "Missing image source"⟩
    else if ("http://".data).isPrefixOf src || ("https://".data).isPrefixOf src then
      if urlPatternTest src then ⟨r.1, r.2, v1.1, v1.2⟩
      else ⟨r.1, r.2, false, some "Invalid image URL format"⟩
    else ⟨r.1, r.2, v1.1, v1.2⟩

structure TableCheck where
  lineNumber : Nat
  isValid : Bool
  error : Option String
  deriving DecidableEq, Repr

/-- Table separator test `^\|?[\s]*:?-+:?[\s]*\|` (all steps forced, as the
greedy options never turn a success into a failure for this pattern). -/
def sepTest (l : List Char) : Bool :=
  let l1 := match l with
    | '|' :: t => t
    | _ => l
  let l2 := l1.dropWhile isWs
  let l3 := match l2 with
    | ':' :: t => t
    | _ => l2
  if (l3.takeWhile (· = '-')).isEmpty then false
  else
    let l4 := l3.dropWhile (· = '-')
    let l5 := match l4 with
      | ':' :: t => t
      | _ => l4
    (l5.dropWhile isWs).head? = some '|'

/-- `validateMarkdownTables` (validationUtils.ts). -/
def validateMarkdownTables (content : String) : List TableCheck :=
  let lines := splitOnChar '\n' content.data
  lines.enum.filterMap fun il =>
    let i := il.1
    let line := jsTrimL il.2
    if sepTest line then
      let headerLine := if 0 < i then jsTrimL ((lines.get? (i - 1)).getD []) else []
      if headerLine.isEmpty || !containsSub headerLine ['|'] then
        some ⟨i + 1, false, some "Table separator without header row"⟩
      else
        let headerCols :=
          ((splitOnChar '|' headerLine).filter (fun cell => !(jsTrimL cell).isEmpty)).length
        let separatorCols :=
          ((splitOnChar '|' line).filter (fun cell => !(jsTrimL cell).isEmpty)).length
        if headerCols ≠ separatorCols then
          some ⟨i + 1, false,
            some ("Column count mismatch: header has " ++ toString headerCols ++
              ", separator has " ++ toString separatorCols)⟩
        else some ⟨i + 1, true, none⟩
    else none

/-- Matcher counting `^#{1,6}\s+.+$` (gm) matches (the `headingCount`
statistic); unlike `headingAllF` the text part is `.+`, which forces
backtracking into the whitespace run when the run reaches the end of the
subject. -/
def headingStatF (b : Bool) (s : List Char) : Option (Unit × Nat) :=
  if !b then none
  else
    let hs := s.takeWhile (· = '#')
    if hs.length < 1 || 6 < hs.length then none
    else
      let rest := s.drop hs.length
      let run := rest.takeWhile isWs
      if run.isEmpty then none
      else
        match rest.dropWhile isWs with
        | _ :: more =>
          some ((), hs.length + run.length + (more.takeWhile (· ≠ '\n')).length)
        | [] =>
          match lastIdxSat (· ≠ '\n') run with
          | some i => if 1 ≤ i then some ((), hs.length + i) else none
          | none => none

/-- `content.split(/\s+/).filter(word => word.length > 0).length`: the number
of maximal non-whitespace runs. -/
def countWordsGo : Bool → List Char → Nat
  | _, [] => 0
  | inWord, c :: cs =>
    if isWs c then countWordsGo false cs
    else (if inWord then 0 else 1) + countWordsGo true cs

def countWords (l : List Char) : Nat :=
  countWordsGo false l

structure MdStats where
  wordCount : Nat
  headingCount : Nat
  linkCount : Nat
  imageCount : Nat
  deriving DecidableEq, Repr

structure ValidationReport where
  isValid : Bool
  errors : List String
  warnings : List String
  stats : MdStats
  deriving DecidableEq, Repr

/-- `validateMarkdown` (validationUtils.ts): errors from the basic content
check and the frontmatter check; warnings from links, images and tables;
`isValid := errors.length === 0`. -/
def validateMarkdown (content : String) : ValidationReport :=
  let errors :=
    (if isValidMarkdown content then []
     else ["Content does not appear to be valid markdown"]) ++
    (if (validateFrontmatter content).isValid then []
     else ["Frontmatter error: " ++ ((validateFrontmatter content).error.getD "undefined")])
  let warnings :=
    ((validateMarkdownLinks content).filterMap fun r =>
      if r.isValid then none
      else some ("Invalid link \"" ++ r.text ++ "\": " ++ r.error.getD "undefined")) ++
    ((validateMarkdownImages content).filterMap fun r =>
      if r.isValid then none
      else some ("Invalid image \"" ++ r.alt ++ "\": " ++ r.error.getD "undefined")) ++
    ((validateMarkdownTables content).filterMap fun r =>
      if r.isValid then none
      else some ("Table error at line " ++ toString r.lineNumber ++ ": " ++ r.error.getD "undefined"))
  { isValid := errors.isEmpty
    errors := errors
    warnings := warnings
    stats :=
      { wordCount := countWords content.data
        headingCount := (scanExtract headingStatF content.data).length
        linkCount := (scanExtract linkExtractF content.data).length
        imageCount := (scanExtract imageSimpleExtractF content.data).length } }

/-- Separation predicate used in proofs: every newline in the list is the
last character or is followed by a non-whitespace character (so the
`\n\s*\n` pattern cannot fire anywhere). -/
def okNl : List Char → Bool
  | [] => true
  | c :: cs =>
    (if c = '\n' then
      match cs with
      | [] => true
      | d :: _ => !isWs d
     else true) && okNl cs

/-- Character class of slug outputs: lowercase letter, digit, or hyphen
(used to state the stability lemmas about `filenameToSlug`). -/
def slugChar (c : Char) : Bool :=
  isLowerAz c || c.isDigit || c = '-'

/-!
## Shared helper lemmas
-/

lemma mkData (s : String) : String.mk s.data = s := rfl

lemma data_append (s t : String) : (s ++ t).data = s.data ++ t.data := rfl

lemma takeWhile_append_all {p : Char → Bool} {xs : List Char} {y : Char}
    {ys : List Char} (hxs : ∀ a ∈ xs, p a = true) (hy : p y = false) :
    (xs ++ y :: ys).takeWhile p = xs := by
  induction xs with
  | nil => simp [List.takeWhile_cons, hy]
  | cons a as ih =>
    have ha : p a = true := hxs a (by simp)
    simp only [List.cons_append, List.takeWhile_cons, ha, if_true, List.cons.injEq,
      true_and]
    exact ih fun a h => hxs a (by simp [h])

lemma dropWhile_append_all {p : Char → Bool} {xs : List Char} {y : Char}
    {ys : List Char} (hxs : ∀ a ∈ xs, p a = true) (hy : p y = false) :
    (xs ++ y :: ys).dropWhile p = y :: ys := by
  induction xs with
  | nil => simp [List.dropWhile_cons, hy]
  | cons a as ih =>
    have ha : p a = true := hxs a (by simp)
    simp only [List.cons_append, List.dropWhile_cons, ha, if_true]
    exact ih fun a h => hxs a (by simp [h])

lemma scanExtractGo_nil {α : Type} (f : Bool → List Char → Option (α × Nat))
    (fuel : Nat) (b : Bool) : scanExtractGo f fuel b [] = [] := by
  cases fuel <;> rfl

lemma scanExtractGo_cons_none {α : Type} {f : Bool → List Char → Option (α × Nat)}
    {b : Bool} {c : Char} {cs : List Char} (h : f b (c :: cs) = none) (fuel : Nat) :
    scanExtractGo f (fuel + 1) b (c :: cs) =
      scanExtractGo f fuel (decide (c = '\n')) cs := by
  simp only [scanExtractGo, h]

lemma scanExtractGo_cons_some {α : Type} {f : Bool → List Char → Option (α × Nat)}
    {b : Bool} {c : Char} {cs : List Char} {v : α} {k : Nat}
    (h : f b (c :: cs) = some (v, k)) (fuel : Nat) :
    scanExtractGo f (fuel + 1) b (c :: cs) =
      v :: scanExtractGo f fuel (nlAt (c :: cs) k) (cs.drop k) := by
  simp only [scanExtractGo, h]

lemma scanReplGo_cons_none {f : Bool → List Char → Option (List Char × Nat)}
    {b : Bool} {c : Char} {cs : List Char} (h : f b (c :: cs) = none) (fuel : Nat) :
    scanReplGo f (fuel + 1) b (c :: cs) =
      c :: scanReplGo f fuel (decide (c = '\n')) cs := by
  simp only [scanReplGo, h]

lemma scanReplGo_cons_some {f : Bool → List Char → Option (List Char × Nat)}
    {b : Bool} {c : Char} {cs : List Char} {rep : List Char} {k : Nat}
    (h : f b (c :: cs) = some (rep, k)) (fuel : Nat) :
    scanReplGo f (fuel + 1) b (c :: cs) =
      rep ++ scanReplGo f fuel (nlAt (c :: cs) k) (cs.drop k) := by
  simp only [scanReplGo, h]

lemma scanReplGo_nil (f : Bool → List Char → Option (List Char × Nat))
    (fuel : Nat) (b : Bool) : scanReplGo f fuel b [] = [] := by
  cases fuel <;> rfl

/-- A replacement scan is the identity on subjects all of whose characters
satisfy a property that makes the matcher fail. -/
lemma scanReplGo_eq_self {f : Bool → List Char → Option (List Char × Nat)}
    {q : Char → Prop}
    (hf : ∀ b s, (∀ c ∈ s, q c) → f b s = none) :
    ∀ fuel b (s : List Char), (∀ c ∈ s, q c) → scanReplGo f fuel b s = s := by
  intro fuel
  induction fuel with
  | zero => intro b s _; rfl
  | succ n ih =>
    intro b s hs
    cases s with
    | nil => rfl
    | cons c cs =>
      simp only [scanReplGo, hf b (c :: cs) hs]
      exact congrArg (c :: ·) (ih _ cs fun a ha => hs a (List.mem_cons_of_mem _ ha))

lemma scanRepl_eq_self {f : Bool → List Char → Option (List Char × Nat)}
    {q : Char → Prop}
    (hf : ∀ b s, (∀ c ∈ s, q c) → f b s = none)
    {s : List Char} (hs : ∀ c ∈ s, q c) : scanRepl f s = s :=
  scanReplGo_eq_self hf _ _ _ hs

/-!
## Claim C9 — `getMostRecentDate` tie-break
-/

/-- C9: when both dates are present and their timestamps are exactly equal,
`getMostRecentDate` returns the `createdAt` argument (the `updatedAt`
argument is returned only on a strictly later timestamp). -/
theorem getMostRecentDate_tie_returns_createdAt {α : Type} (getTime : α → JsDate)
    (createdAt updatedAt : α) (h : getTime createdAt = getTime updatedAt) :
    getMostRecentDate getTime (some createdAt) (some updatedAt) = some createdAt := by
  simp [getMostRecentDate, h]

/-- C9 witness: two distinguishable dates with equal timestamps; the first
argument is returned. -/
theorem getMostRecentDate_tie_witness :
    getMostRecentDate (Prod.fst (β := Bool)) (some ((3 : Int), true))
      (some ((3 : Int), false)) = some ((3 : Int), true) :=
  getMostRecentDate_tie_returns_createdAt _ _ _ rfl

/-!
## Claim C7 — `getRelativePath` fallback
-/

/-- C7 counterexample: with no structural relationship between path and base,
the function returns the separator-normalized path, not the original input —
here the backslash input `a\b` comes back as `a/b`. -/
theorem getRelativePath_not_original :
    getRelativePath "a\\b" "q" = "a/b" ∧ "a/b" ≠ "a\\b" := by
  constructor
  · rfl
  · decide

/-- C7 (amended): when the normalized path neither starts with the normalized
base nor contains `base + "/"` reachable without crossing a newline, the
function returns the *normalized* path (backslashes already replaced), which
equals the original input only when the input contained no backslashes. -/
theorem getRelativePath_fallback_normalized (filePath baseFolderName : String)
    (h1 : (normalizePath baseFolderName).data.isPrefixOf
      (normalizePath filePath).data = false)
    (h2 : findOcc (normalizePath filePath).data
      ((normalizePath baseFolderName).data ++ ['/']) = none) :
    getRelativePath filePath baseFolderName = normalizePath filePath := by
  unfold getRelativePath
  simp only [h1, h2, Bool.false_eq_true, if_false]

/-- C7 witness. -/
theorem getRelativePath_fallback_witness :
    getRelativePath "x\\y" "zz" = normalizePath "x\\y" :=
  getRelativePath_fallback_normalized "x\\y" "zz" (by decide) (by decide)

/-!
## Claim C8 — `validateMarkdown`'s validity flag
-/

lemma validateFrontmatter_isValid (content : String) :
    (validateFrontmatter content).isValid = true := by
  unfold validateFrontmatter
  rcases h : fmMatch content.data with _ | ⟨fmText, md⟩ <;> simp

/-- C8: the report's `isValid` is `true` exactly when `errors` is empty, and
it is determined by `isValidMarkdown` alone (the frontmatter check never
fails, and link/image/table problems flow only into `warnings`). -/
theorem validateMarkdown_isValid_iff (content : String) :
    ((validateMarkdown content).isValid = true ↔
      (validateMarkdown content).errors = []) ∧
    (validateMarkdown content).isValid = isValidMarkdown content := by
  have hfm := validateFrontmatter_isValid content
  cases h : isValidMarkdown content <;>
    simp [validateMarkdown, hfm, h]

/-!
## Claim C1 — `extractLinks` and image links
-/

/-- C1 counterexample: the sole `[text](url)` occurrence in `![a](b)` is an
image (its `[` is immediately preceded by `!`), yet `extractLinks` returns
it; `extractImages` matches the same occurrence. -/
theorem extractLinks_returns_image_link :
    extractLinks "![a](b)" = [⟨"a", "b"⟩] ∧
      extractImages "![a](b)" = [⟨"a", "b", none⟩] := by
  constructor <;> rfl

lemma dropWhile_all {p : Char → Bool} {l : List Char}
    (h : ∀ c ∈ l, p c = true) : l.dropWhile p = [] := by
  induction l with
  | nil => rfl
  | cons c cs ih =>
    simp only [List.dropWhile_cons, h c (by simp), if_true]
    exact ih fun c hc => h c (by simp [hc])

lemma takeWhile_all {p : Char → Bool} {l : List Char}
    (h : ∀ c ∈ l, p c = true) : l.takeWhile p = l :=
  List.takeWhile_eq_self_iff.mpr h

/-- C1 (amended): `extractLinks` returns every `[text](url)` occurrence in
document order *including* image occurrences — prepending `![` and appending
`](url)` around any `]`-free text always contributes a link. -/
theorem extractLinks_includes_image_occurrences (a b : String)
    (ha : ∀ c ∈ a.data, c ≠ ']') (hb : ∀ c ∈ b.data, c ≠ ')') :
    extractLinks ("![" ++ a ++ "](" ++ b ++ ")") = [⟨a, b⟩] := by
  have hdata : ("![" ++ a ++ "](" ++ b ++ ")").data =
      '!' :: '[' :: (a.data ++ ']' :: '(' :: (b.data ++ [')'])) := by
    simp [data_append]
  have ha' : ∀ c ∈ a.data, (fun c => decide (c ≠ ']')) c = true :=
    fun c hc => decide_eq_true (ha c hc)
  have hb' : ∀ c ∈ b.data, (fun c => decide (c ≠ ')')) c = true :=
    fun c hc => decide_eq_true (hb c hc)
  have hcore : linkCore ('[' :: (a.data ++ ']' :: '(' :: (b.data ++ [')']))) =
      some (a.data, b.data, a.data.length + b.data.length + 3) := by
    simp only [linkCore, Char.reduceEq, reduceIte]
    rw [takeWhile_append_all ha' (by decide), dropWhile_append_all ha' (by decide)]
    simp only [Char.reduceEq, reduceIte]
    rw [takeWhile_append_all hb' (by decide), dropWhile_append_all hb' (by decide)]
  have hlen : ('!' :: '[' :: (a.data ++ ']' :: '(' :: (b.data ++ [')']))).length =
      (a.data.length + b.data.length + 4) + 1 := by
    simp [List.length_append]; omega
  have h1 : linkExtractF true
      ('!' :: '[' :: (a.data ++ ']' :: '(' :: (b.data ++ [')']))) = none := rfl
  have h2 : linkExtractF (decide ('!' = '\n'))
      ('[' :: (a.data ++ ']' :: '(' :: (b.data ++ [')']))) =
      some (⟨a, b⟩, a.data.length + b.data.length + 3) := by
    unfold linkExtractF
    rw [hcore]
  have hdrop : (a.data ++ ']' :: '(' :: (b.data ++ [')'])).drop
      (a.data.length + b.data.length + 3) = [] := by
    apply List.drop_eq_nil_of_le
    simp [List.length_append]
    omega
  unfold extractLinks scanExtract
  rw [hdata, hlen, scanExtractGo_cons_none h1]
  rw [show a.data.length + b.data.length + 4 =
    (a.data.length + b.data.length + 3) + 1 from rfl]
  rw [scanExtractGo_cons_some h2, hdrop, scanExtractGo_nil]

/-- C1 witness. -/
theorem extractLinks_includes_image_occurrences_witness :
    extractLinks ("![" ++ "alt" ++ "](" ++ "src" ++ ")") = [⟨"alt", "src"⟩] :=
  extractLinks_includes_image_occurrences "alt" "src" (by decide) (by decide)

/-!
## Claim C6 — `getCreationDate` without a recognized label
-/

/-- C6 counterexample: `"ab  2020-01-02"` contains none of the seven labels
from the claim, yet the pattern's final bare-space alternative matches the
two consecutive spaces and the date is returned. -/
theorem getCreationDate_matches_without_label :
    getCreationDate isoParse "ab  2020-01-02" = some 20200102 ∧
    (["Date:", "Created:", "Created At:", "Created On:", "Created Date:",
      "Created Time:", "**Date:**"].all
        (fun lab => !containsSubS "ab  2020-01-02" lab)) = true := by
  constructor
  · rfl
  · decide

/-- C6 (amended): `getCreationDate` is absent exactly on the regex's own
terms — when the pattern (whose alternatives also include colon-less labels
and a bare space, so no recognized label is required) finds no match, or when
the first match's captured line remainder does not parse. -/
theorem getCreationDate_absent_conditions (parse : String → Option JsDate)
    (content : String)
    (h : creationMatch content.data = none ∨
      ∃ cap, creationMatch content.data = some cap ∧
        parse (String.mk (jsTrimL cap)) = none) :
    getCreationDate parse content = none := by
  unfold getCreationDate
  rcases h with h | ⟨cap, hcap, hp⟩
  · rw [h]
  · rw [hcap]; exact hp

/-- C6 witness: a labelled line whose remainder does not parse. -/
theorem getCreationDate_absent_witness :
    getCreationDate isoParse "Date: tomorrow" = none :=
  getCreationDate_absent_conditions isoParse "Date: tomorrow"
    (Or.inr ⟨"tomorrow".data, by decide, by decide⟩)

/-!
## Claim C10 — `getAllHeadings` on whitespace-only heading lines
-/

/-- An extraction scan skips a block of characters on which the matcher can
never fire, updating the line-start flag from the characters passed. -/
lemma scanExtractGo_skip {α : Type} {f : Bool → List Char → Option (α × Nat)}
    {q : Char → Prop} (hf : ∀ b c cs, q c → f b (c :: cs) = none) :
    ∀ (s : List Char) (fuel : Nat) (b : Bool) (t : List Char), (∀ c ∈ s, q c) →
      scanExtractGo f (s.length + fuel) b (s ++ t) =
        scanExtractGo f fuel (s.foldl (fun _ c => decide (c = '\n')) b) t := by
  intro s
  induction s with
  | nil => intro fuel b t _; simp
  | cons c cs ih =>
    intro fuel b t hq
    rw [show (c :: cs).length + fuel = (cs.length + fuel) + 1 by simp; omega]
    rw [show ((c :: cs) ++ t) = c :: (cs ++ t) from rfl]
    rw [scanExtractGo_cons_none (hf b c (cs ++ t) (hq c (by simp)))]
    rw [ih fuel _ t fun a ha => hq a (by simp [ha])]
    simp

lemma foldl_nl_flag {l : List Char} {c : Char} (h : l.getLast? = some c) :
    ∀ b, l.foldl (fun _ x => decide (x = '\n')) b = decide (c = '\n') := by
  induction l with
  | nil => simp at h
  | cons x xs ih =>
    intro b
    cases xs with
    | nil =>
      simp only [List.getLast?_singleton, Option.some.injEq] at h
      simp [h]
    | cons y ys =>
      have h' : (y :: ys).getLast? = some c := by
        rwa [List.getLast?_cons_cons] at h
      simp only [List.foldl_cons]
      exact ih h' (decide (x = '\n'))

lemma headingAllF_none_head {b : Bool} {c : Char} {cs : List Char}
    (hc : c ≠ '#') : headingAllF b (c :: cs) = none := by
  cases b with
  | false => simp [headingAllF]
  | true => simp [headingAllF, List.takeWhile_cons, hc]

lemma isWs_ne_hash {c : Char} (h : isWs c = true) : c ≠ '#' := by
  intro hc
  subst hc
  simp [isWs] at h

/-- The heading matcher at `#`^k followed by trailing whitespace `W` reaching
the end of the subject: the greedy `\s+` swallows all of `W` and `(.*)`
captures the empty text. -/
lemma headingAllF_at_hashes {k : Nat} (hk1 : 1 ≤ k) (hk6 : k ≤ 6)
    {W : List Char} (hW : W ≠ []) (hWws : ∀ c ∈ W, isWs c = true) :
    headingAllF true (List.replicate k '#' ++ W) =
      some ((k, []), k + W.length - 1) := by
  obtain ⟨w, ws, rfl⟩ : ∃ w ws, W = w :: ws := by
    cases W with
    | nil => exact absurd rfl hW
    | cons w ws => exact ⟨w, ws, rfl⟩
  have hhash : ∀ c ∈ List.replicate k '#', (fun c => decide (c = '#')) c = true := by
    intro c hc
    simp [List.eq_of_mem_replicate hc]
  have hw : (fun c => decide (c = '#')) w = false := by
    simp
    exact isWs_ne_hash (hWws w (by simp))
  have hcond : (decide (k < 1) || decide (6 < k)) = false := by
    simp; omega
  have hdrop : (List.replicate k '#' ++ (w :: ws)).drop k = w :: ws := by
    have h := List.drop_left (List.replicate k '#') (w :: ws)
    rwa [List.length_replicate] at h
  unfold headingAllF
  rw [takeWhile_append_all hhash hw]
  simp only [Bool.not_true, List.length_replicate, hcond, Bool.false_eq_true,
    if_false, hdrop]
  rw [takeWhile_all (fun c hc => hWws c hc), dropWhile_all (fun c hc => hWws c hc)]
  simp only [List.isEmpty_cons, List.takeWhile_nil, List.length_nil,
    Bool.false_eq_true, if_false]
  rfl

/-- C10 counterexample: the line `"# "` consists of `#` and whitespace, yet —
because the greedy `\s+` crosses the newline — `getAllHeadings` produces no
empty-text record for it: the single record swallows the next line's text. -/
theorem getAllHeadings_no_empty_record :
    getAllHeadings "# \nabc" 6 = [⟨1, "abc", "abc"⟩] ∧
    ((getAllHeadings "# \nabc" 6).all fun h =>
      !(h.text == "" && h.anchor == "")) = true := by
  constructor <;> rfl

/-- C10 (amended): a line of 1–6 `#` followed by whitespace yields a record
with empty text and anchor exactly when that whitespace run reaches the end
of the content; here, for any plain prefix `s` (lowercase letters and
newlines, ending in a newline or empty) and any nonempty trailing whitespace
`w`, the result is the single empty heading record. -/
theorem getAllHeadings_trailing_blank_heading (s w : String) (k maxLevel : Nat)
    (hk1 : 1 ≤ k) (hk6 : k ≤ 6) (hkm : k ≤ maxLevel)
    (hs : ∀ c ∈ s.data, isLowerAz c = true ∨ c = '\n')
    (hend : s.data = [] ∨ s.data.getLast? = some '\n')
    (hw : w.data ≠ []) (hww : ∀ c ∈ w.data, isWs c = true) :
    getAllHeadings (s ++ String.mk (List.replicate k '#') ++ w) maxLevel =
      [⟨k, "", ""⟩] := by
  have hdata : (s ++ String.mk (List.replicate k '#') ++ w).data =
      s.data ++ (List.replicate k '#' ++ w.data) := by
    simp [data_append]
  have hf : ∀ (b : Bool) (c : Char) (cs : List Char),
      (isLowerAz c = true ∨ c = '\n') → headingAllF b (c :: cs) = none := by
    intro b c cs hqc
    apply headingAllF_none_head
    rcases hqc with hlo | hnl
    · intro hc
      subst hc
      simp [isLowerAz] at hlo
    · subst hnl; decide
  have hflag : s.data.foldl (fun _ c => decide (c = '\n')) true = true := by
    rcases hend with h0 | hl
    · rw [h0]; rfl
    · rw [foldl_nl_flag hl]; rfl
  have hsome := headingAllF_at_hashes hk1 hk6 hw hww
  obtain ⟨k', rfl⟩ : ∃ k', k = k' + 1 := ⟨k - 1, by omega⟩
  have hcons : List.replicate (k' + 1) '#' ++ w.data =
      '#' :: (List.replicate k' '#' ++ w.data) := by
    rw [List.replicate_succ]; rfl
  have hlen2 : (List.replicate (k' + 1) '#' ++ w.data).length =
      (k' + w.data.length) + 1 := by
    simp; omega
  have hdropall : (List.replicate k' '#' ++ w.data).drop
      ((k' + 1) + w.data.length - 1) = [] := by
    apply List.drop_eq_nil_of_le
    simp
  unfold getAllHeadings scanExtract
  rw [hdata, show (s.data ++ (List.replicate (k' + 1) '#' ++ w.data)).length =
    s.data.length + (List.replicate (k' + 1) '#' ++ w.data).length by simp]
  rw [scanExtractGo_skip hf s.data _ true _ hs, hflag, hlen2]
  rw [hcons] at hsome ⊢
  rw [scanExtractGo_cons_some hsome, hdropall, scanExtractGo_nil]
  simp [List.filterMap, hkm]
  exact ⟨rfl, rfl⟩

/-- C10 witness: the content `"##  "` (two hashes, trailing whitespace to end
of input) yields exactly one record with empty text and anchor. -/
theorem getAllHeadings_trailing_blank_heading_witness :
    getAllHeadings ("" ++ String.mk (List.replicate 2 '#') ++ "  ") 6 =
      [⟨2, "", ""⟩] :=
  getAllHeadings_trailing_blank_heading "" "  " 2 6 (by decide) (by decide)
    (by decide) (by decide) (Or.inl rfl) (by decide) (by decide)

/-!
## Claims C2 and C3 — `stripMarkdown`

Per-stage "matcher cannot fire" lemmas, used to show stages act as the
identity on suitably plain text.
-/

lemma mdHeadingMarkF_none {b : Bool} {s : List Char}
    (h : ∀ c ∈ s, c ≠ '#') : mdHeadingMarkF b s = none := by
  cases b with
  | false => simp [mdHeadingMarkF]
  | true =>
    cases s with
    | nil => simp [mdHeadingMarkF]
    | cons c cs => simp [mdHeadingMarkF, List.takeWhile_cons, h c (by simp)]

lemma boldF_none {b : Bool} {s : List Char}
    (h : ∀ c ∈ s, c ≠ '*') : boldF b s = none := by
  unfold boldF; split
  · exact absurd rfl (h '*' (by simp))
  · rfl

lemma italicF_none {b : Bool} {s : List Char}
    (h : ∀ c ∈ s, c ≠ '*') : italicF b s = none := by
  unfold italicF; split
  · exact absurd rfl (h '*' (by simp))
  · rfl

lemma strikeF_none {b : Bool} {s : List Char}
    (h : ∀ c ∈ s, c ≠ '~') : strikeF b s = none := by
  unfold strikeF; split
  · exact absurd rfl (h '~' (by simp))
  · rfl

lemma inlineCodeUnwrapF_none {b : Bool} {s : List Char}
    (h : ∀ c ∈ s, c ≠ '`') : inlineCodeUnwrapF b s = none := by
  cases s with
  | nil => rfl
  | cons c cs => simp [inlineCodeUnwrapF, h c (by simp)]

lemma codeBlockF_none {b : Bool} {s : List Char}
    (h : ∀ c ∈ s, c ≠ '`') : codeBlockF b s = none := by
  unfold codeBlockF; split
  · exact absurd rfl (h '`' (by simp))
  · rfl

lemma linkCore_none {s : List Char} (h : ∀ c ∈ s, c ≠ '[') :
    linkCore s = none := by
  cases s with
  | nil => rfl
  | cons c cs => simp [linkCore, h c (by simp)]

lemma linkUnwrapF_none {b : Bool} {s : List Char}
    (h : ∀ c ∈ s, c ≠ '[') : linkUnwrapF b s = none := by
  unfold linkUnwrapF
  rw [linkCore_none h]

lemma imageSimpleCore_none {s : List Char} (h : ∀ c ∈ s, c ≠ '!') :
    imageSimpleCore s = none := by
  unfold imageSimpleCore; split
  · exact absurd rfl (h '!' (by simp))
  · rfl

lemma imageUnwrapF_none {b : Bool} {s : List Char}
    (h : ∀ c ∈ s, c ≠ '!') : imageUnwrapF b s = none := by
  unfold imageUnwrapF
  rw [imageSimpleCore_none h]

lemma mem_of_dropWhile_eq_cons {p : Char → Bool} {l : List Char} {m : Char}
    {rest : List Char} (h : l.dropWhile p = m :: rest) : m ∈ l :=
  (List.dropWhile_sublist p).subset (h ▸ List.mem_cons_self m rest)

lemma listMarkF_none {b : Bool} {s : List Char}
    (h : ∀ c ∈ s, c ≠ '-' ∧ c ≠ '*' ∧ c ≠ '+') : listMarkF b s = none := by
  cases b with
  | false => simp [listMarkF]
  | true =>
    unfold listMarkF
    simp only [Bool.not_true, Bool.false_eq_true, if_false]
    split
    · next m rest heq =>
      have hm := h m (mem_of_dropWhile_eq_cons heq)
      simp [hm.1, hm.2.1, hm.2.2]
    · rfl

lemma numListF_none {b : Bool} {s : List Char}
    (h : ∀ c ∈ s, c.isDigit = false) : numListF b s = none := by
  cases b with
  | false => simp [numListF]
  | true =>
    unfold numListF
    simp only [Bool.not_true, Bool.false_eq_true, if_false]
    cases hafter : s.dropWhile isWs with
    | nil => simp [hafter]
    | cons m rest =>
      have hm := h m (mem_of_dropWhile_eq_cons hafter)
      simp [hafter, List.takeWhile_cons, hm]

lemma quoteF_none {b : Bool} {s : List Char}
    (h : ∀ c ∈ s, c ≠ '>') : quoteF b s = none := by
  cases b with
  | false => simp [quoteF]
  | true =>
    unfold quoteF
    simp only [Bool.not_true, Bool.false_eq_true, if_false]
    split
    · next rest heq => exact absurd rfl (h '>' (mem_of_dropWhile_eq_cons heq))
    · rfl

lemma collapseNlF_none {b : Bool} {s : List Char}
    (h : ∀ c ∈ s, c ≠ '\n') : collapseNlF b s = none := by
  unfold collapseNlF; split
  · exact absurd rfl (h '\n' (by simp))
  · rfl

/-- Characters that are lowercase letters or spaces avoid every markdown
metacharacter. -/
lemma plain_ne {c : Char} (h : isLowerAz c = true ∨ c = ' ') {x : Char}
    (hx : (isLowerAz x || decide (x = ' ')) = false) : c ≠ x := by
  intro he
  rw [he] at h
  rcases h with h | h
  · rw [h] at hx; simp at hx
  · subst h; exact absurd hx (by decide)

lemma plain_not_digit {c : Char} (h : isLowerAz c = true ∨ c = ' ') :
    c.isDigit = false := by
  rcases h with h | h
  · simp only [isLowerAz, Bool.and_eq_true, decide_eq_true_eq] at h
    cases hd : c.isDigit
    · rfl
    · exfalso
      simp only [Char.isDigit, Bool.and_eq_true, decide_eq_true_eq] at hd
      have h1 : ('a' : Char).val ≤ c.val := h.1
      have h2 : c.val ≤ (57 : UInt32) := hd.2
      rw [UInt32.le_def, BitVec.le_def] at h1 h2
      simp at h1 h2
      omega
  · subst h; rfl

/-- `stripMarkdown` is the identity on trimmed plain text built from
lowercase letters and spaces. -/
lemma stripMarkdownL_id_plain {l : List Char}
    (h : ∀ c ∈ l, isLowerAz c = true ∨ c = ' ')
    (ht : jsTrimL l = l) : stripMarkdownL l = l := by
  unfold stripMarkdownL
  unfold removeHeadingMarkers removeBold removeItalic removeStrike
    removeInlineCode removeCodeBlocks removeLinksKeepText removeImagesKeepAlt
    removeListMarkers removeNumListMarkers removeBlockquoteMarkers
    collapseBlankLines
  rw [scanRepl_eq_self (fun b s hs => mdHeadingMarkF_none hs)
      (fun c hc => plain_ne (h c hc) (by decide))]
  rw [scanRepl_eq_self (fun b s hs => boldF_none hs)
      (fun c hc => plain_ne (h c hc) (by decide))]
  rw [scanRepl_eq_self (fun b s hs => italicF_none hs)
      (fun c hc => plain_ne (h c hc) (by decide))]
  rw [scanRepl_eq_self (fun b s hs => strikeF_none hs)
      (fun c hc => plain_ne (h c hc) (by decide))]
  rw [scanRepl_eq_self (fun b s hs => inlineCodeUnwrapF_none hs)
      (fun c hc => plain_ne (h c hc) (by decide))]
  rw [scanRepl_eq_self (fun b s hs => codeBlockF_none hs)
      (fun c hc => plain_ne (h c hc) (by decide))]
  rw [scanRepl_eq_self (fun b s hs => linkUnwrapF_none hs)
      (fun c hc => plain_ne (h c hc) (by decide))]
  rw [scanRepl_eq_self (fun b s hs => imageUnwrapF_none hs)
      (fun c hc => plain_ne (h c hc) (by decide))]
  rw [scanRepl_eq_self (fun b s hs => listMarkF_none hs)
      (fun c hc => ⟨plain_ne (h c hc) (by decide), plain_ne (h c hc) (by decide),
        plain_ne (h c hc) (by decide)⟩)]
  rw [scanRepl_eq_self (fun b s hs => numListF_none hs)
      (fun c hc => plain_not_digit (h c hc))]
  rw [scanRepl_eq_self (fun b s hs => quoteF_none hs)
      (fun c hc => plain_ne (h c hc) (by decide))]
  rw [scanRepl_eq_self (fun b s hs => collapseNlF_none hs)
      (fun c hc => plain_ne (h c hc) (by decide))]
  exact ht

/-- C3 counterexample: `stripMarkdown` is not idempotent — the first pass
over `"- - x"` removes one list marker and exposes another, which only the
second pass removes. -/
theorem stripMarkdown_not_idempotent :
    stripMarkdown "- - x" = "- x" ∧ stripMarkdown "- x" = "x" ∧
      stripMarkdown (stripMarkdown "- - x") ≠ stripMarkdown "- - x" := by
  refine ⟨rfl, rfl, ?_⟩
  decide

/-- C3 (amended): `stripMarkdown` is not idempotent in general (a pass can
expose fresh markers), but it is the identity — hence idempotent — on
trimmed plain text of lowercase letters and spaces. -/
theorem stripMarkdown_idempotent_on_plain (t : String)
    (h : ∀ c ∈ t.data, isLowerAz c = true ∨ c = ' ')
    (ht : jsTrim t = t) :
    stripMarkdown (stripMarkdown t) = stripMarkdown t := by
  have htl : jsTrimL t.data = t.data := congrArg String.data ht
  have hid : stripMarkdown t = t := by
    show String.mk (stripMarkdownL t.data) = t
    rw [stripMarkdownL_id_plain h htl]
  rw [hid]
  exact hid

/-- C3 witness. -/
theorem stripMarkdown_idempotent_on_plain_witness :
    stripMarkdown (stripMarkdown "hello world") = stripMarkdown "hello world" :=
  stripMarkdown_idempotent_on_plain "hello world" (by decide) rfl

/-!
## Claim C2 — `stripMarkdown` and fenced code blocks
-/

lemma removeHeadingMarkers_id {l : List Char} (h : ∀ c ∈ l, c ≠ '#') :
    removeHeadingMarkers l = l :=
  scanRepl_eq_self (fun _ _ hs => mdHeadingMarkF_none hs) h

lemma removeBold_id {l : List Char} (h : ∀ c ∈ l, c ≠ '*') :
    removeBold l = l :=
  scanRepl_eq_self (fun _ _ hs => boldF_none hs) h

lemma removeItalic_id {l : List Char} (h : ∀ c ∈ l, c ≠ '*') :
    removeItalic l = l :=
  scanRepl_eq_self (fun _ _ hs => italicF_none hs) h

lemma removeStrike_id {l : List Char} (h : ∀ c ∈ l, c ≠ '~') :
    removeStrike l = l :=
  scanRepl_eq_self (fun _ _ hs => strikeF_none hs) h

lemma removeCodeBlocks_id {l : List Char} (h : ∀ c ∈ l, c ≠ '`') :
    removeCodeBlocks l = l :=
  scanRepl_eq_self (fun _ _ hs => codeBlockF_none hs) h

lemma removeLinksKeepText_id {l : List Char} (h : ∀ c ∈ l, c ≠ '[') :
    removeLinksKeepText l = l :=
  scanRepl_eq_self (fun _ _ hs => linkUnwrapF_none hs) h

lemma removeImagesKeepAlt_id {l : List Char} (h : ∀ c ∈ l, c ≠ '!') :
    removeImagesKeepAlt l = l :=
  scanRepl_eq_self (fun _ _ hs => imageUnwrapF_none hs) h

lemma removeListMarkers_id {l : List Char}
    (h : ∀ c ∈ l, c ≠ '-' ∧ c ≠ '*' ∧ c ≠ '+') : removeListMarkers l = l :=
  scanRepl_eq_self (fun _ _ hs => listMarkF_none hs) h

lemma removeNumListMarkers_id {l : List Char}
    (h : ∀ c ∈ l, c.isDigit = false) : removeNumListMarkers l = l :=
  scanRepl_eq_self (fun _ _ hs => numListF_none hs) h

lemma removeBlockquoteMarkers_id {l : List Char} (h : ∀ c ∈ l, c ≠ '>') :
    removeBlockquoteMarkers l = l :=
  scanRepl_eq_self (fun _ _ hs => quoteF_none hs) h

lemma okNl_cons_tail {c : Char} {cs : List Char} (h : okNl (c :: cs) = true) :
    okNl cs = true := by
  simp only [okNl, Bool.and_eq_true] at h
  exact h.2

lemma collapseNlF_none_okNl {b : Bool} {c : Char} {cs : List Char}
    (h : okNl (c :: cs) = true) : collapseNlF b (c :: cs) = none := by
  by_cases hc : c = '\n'
  · subst hc
    cases cs with
    | nil => rfl
    | cons d ds =>
      have hd : isWs d = false := by
        simp only [okNl, Char.reduceEq, reduceIte, Bool.and_eq_true,
          Bool.not_eq_eq_eq_not, Bool.not_true] at h
        exact h.1
      simp [collapseNlF, List.takeWhile_cons, hd, lastNlIdx]
  · unfold collapseNlF
    split
    · next rest heq =>
      injection heq with h1 _
      exact absurd h1 hc
    · rfl

lemma collapseBlankLines_id_okNl : ∀ (fuel : Nat) (b : Bool) (s : List Char),
    okNl s = true → scanReplGo collapseNlF fuel b s = s := by
  intro fuel
  induction fuel with
  | zero => intro b s _; rfl
  | succ n ih =>
    intro b s hs
    cases s with
    | nil => rfl
    | cons c cs =>
      rw [scanReplGo_cons_none (collapseNlF_none_okNl hs)]
      exact congrArg (c :: ·) (ih _ cs (okNl_cons_tail hs))

lemma lower_not_ws {c : Char} (h : isLowerAz c = true) : isWs c = false := by
  cases hw : isWs c
  · rfl
  · exfalso
    have h6 : c = ' ' ∨ c = '\t' ∨ c = '\n' ∨ c = '\r' ∨ c = '\x0b' ∨
        c = '\x0c' := by
      simpa [isWs, or_assoc] using hw
    rcases h6 with h' | h' | h' | h' | h' | h' <;>
      (subst h'; exact absurd h (by decide))

lemma lower_ne {c x : Char} (h : isLowerAz c = true)
    (hx : isLowerAz x = false) : c ≠ x := by
  intro he
  rw [he] at h
  rw [h] at hx
  simp at hx

lemma charclass2_ne {c : Char} (h : isLowerAz c = true ∨ c = '\n') {x : Char}
    (hx : (isLowerAz x || decide (x = '\n')) = false) : c ≠ x := by
  intro he
  rw [he] at h
  rcases h with h | h
  · rw [h] at hx; simp at hx
  · subst h; exact absurd hx (by decide)

lemma lower_not_digit {c : Char} (h : isLowerAz c = true) :
    c.isDigit = false :=
  plain_not_digit (Or.inl h)

/-- `okNl` holds for lowercase text, newline, lowercase text, final
newline. -/
lemma okNl_sep_tail {B : List Char} (hB : ∀ c ∈ B, isLowerAz c = true) :
    okNl (B ++ ['\n']) = true := by
  induction B with
  | nil => rfl
  | cons b bs ih =>
    have hb : b ≠ '\n' := lower_ne (hB b (by simp)) (by decide)
    simp only [List.cons_append, okNl, hb, if_false, Bool.true_and]
    exact ih fun c hc => hB c (by simp [hc])

lemma okNl_sep {A B : List Char} (hA : ∀ c ∈ A, isLowerAz c = true)
    (hBne : B ≠ []) (hB : ∀ c ∈ B, isLowerAz c = true) :
    okNl (A ++ '\n' :: (B ++ ['\n'])) = true := by
  induction A with
  | nil =>
    cases B with
    | nil => exact absurd rfl hBne
    | cons b bs =>
      have hb : isWs b = false := lower_not_ws (hB b (by simp))
      simp only [List.nil_append, okNl, if_pos rfl, List.cons_append, hb,
        Bool.not_false, Bool.true_and]
      exact okNl_sep_tail hB
  | cons a as ih =>
    have ha : a ≠ '\n' := lower_ne (hA a (by simp)) (by decide)
    simp only [List.cons_append, okNl, ha, if_false, Bool.true_and]
    exact ih fun c hc => hA c (by simp [hc])

/-- Dropping whitespace from a list that starts with a nonempty
whitespace-free prefix is the identity. -/
lemma dropWhile_append_keep {p : Char → Bool} {A X : List Char} (hA : A ≠ [])
    (h : ∀ c ∈ A, p c = false) : (A ++ X).dropWhile p = A ++ X := by
  cases A with
  | nil => exact absurd rfl hA
  | cons a as =>
    rw [show ((a :: as) ++ X) = a :: (as ++ X) from rfl, List.dropWhile_cons,
      if_neg (by simp [h a (by simp)])]

/-- The trim step on `A ++ "\n" ++ B ++ "\n"` with `A`, `B` nonempty
lowercase: only the final newline is removed. -/
lemma jsTrimL_sep {A B : List Char} (hAne : A ≠ [])
    (hA : ∀ c ∈ A, isLowerAz c = true) (hBne : B ≠ [])
    (hB : ∀ c ∈ B, isLowerAz c = true) :
    jsTrimL (A ++ '\n' :: (B ++ ['\n'])) = A ++ '\n' :: B := by
  unfold jsTrimL
  rw [dropWhile_append_keep hAne (fun c hc => lower_not_ws (hA c hc))]
  rw [show (A ++ '\n' :: (B ++ ['\n'])).reverse =
    '\n' :: (B.reverse ++ '\n' :: A.reverse) by simp]
  rw [List.dropWhile_cons, if_pos (by decide)]
  have hBrne : B.reverse ≠ [] := by simpa using hBne
  rw [dropWhile_append_keep hBrne
    (fun c hc => lower_not_ws (hB c (by simpa using hc)))]
  rw [show (B.reverse ++ '\n' :: A.reverse).reverse = A ++ '\n' :: B by simp]

/-- The inline-code rule dismantles the backtick fences: the first pair of
opening backticks matches emptily, the third opening backtick pairs with the
first closing backtick (capturing the whole interior), and the remaining two
closing backticks match emptily. -/
lemma removeInlineCode_fence {A B : List Char}
    (hA : ∀ c ∈ A, c ≠ '`') (hB : ∀ c ∈ B, c ≠ '`') :
    removeInlineCode ('`' :: '`' :: '`' ::
        (A ++ '\n' :: (B ++ '\n' :: '`' :: '`' :: ['`']))) =
      A ++ '\n' :: (B ++ ['\n']) := by
  have hxs : ∀ c ∈ A ++ '\n' :: (B ++ ['\n']),
      (fun c => decide (c ≠ '`')) c = true := by
    intro c hc
    rcases List.mem_append.mp hc with h1 | h1
    · exact decide_eq_true (hA c h1)
    · rcases List.mem_cons.mp h1 with h2 | h2
      · subst h2; decide
      · rcases List.mem_append.mp h2 with h3 | h3
        · exact decide_eq_true (hB c h3)
        · rcases List.mem_cons.mp h3 with h4 | h4
          · subst h4; decide
          · exact absurd h4 (List.not_mem_nil c)
  have hshape : A ++ '\n' :: (B ++ '\n' :: '`' :: '`' :: ['`']) =
      (A ++ '\n' :: (B ++ ['\n'])) ++ '`' :: ['`', '`'] := by
    simp
  have hf1 : inlineCodeUnwrapF true ('`' :: '`' :: '`' ::
      (A ++ '\n' :: (B ++ '\n' :: '`' :: '`' :: ['`']))) = some ([], 1) := rfl
  have hf2 : ∀ b, inlineCodeUnwrapF b
      ('`' :: (A ++ '\n' :: (B ++ '\n' :: '`' :: '`' :: ['`']))) =
      some (A ++ '\n' :: (B ++ ['\n']),
        (A ++ '\n' :: (B ++ ['\n'])).length + 1) := by
    intro b
    simp only [inlineCodeUnwrapF, Char.reduceEq, reduceIte]
    rw [hshape, takeWhile_append_all hxs (by decide),
      dropWhile_append_all hxs (by decide)]
  have hf3 : ∀ b, inlineCodeUnwrapF b ('`' :: ['`']) = some ([], 1) := by
    intro b; rfl
  have hlen : ('`' :: '`' :: '`' ::
      (A ++ '\n' :: (B ++ '\n' :: '`' :: '`' :: ['`']))).length =
      (A.length + B.length + 7) + 1 := by
    simp [List.length_append]
    omega
  have hdrop2 : (A ++ '\n' :: (B ++ '\n' :: '`' :: '`' :: ['`'])).drop
      ((A ++ '\n' :: (B ++ ['\n'])).length + 1) = '`' :: ['`'] := by
    rw [hshape, List.drop_append_eq_append_drop]
    simp
  unfold removeInlineCode scanRepl
  rw [hlen, scanReplGo_cons_some hf1]
  rw [show List.drop 1 ('`' :: '`' ::
      (A ++ '\n' :: (B ++ '\n' :: '`' :: '`' :: ['`']))) =
    '`' :: (A ++ '\n' :: (B ++ '\n' :: '`' :: '`' :: ['`'])) from rfl]
  rw [show A.length + B.length + 7 = (A.length + B.length + 6) + 1 from rfl]
  rw [scanReplGo_cons_some (hf2 _), hdrop2]
  rw [show A.length + B.length + 6 = (A.length + B.length + 4) + 2 from rfl]
  rw [show ((A.length + B.length + 4) + 2) = ((A.length + B.length + 4) + 1) + 1
    from rfl]
  rw [scanReplGo_cons_some (hf3 _)]
  simp [scanReplGo_nil]

/-- C2 counterexample: the content of a fenced code block survives
`stripMarkdown` — the language token and the code text both appear in the
output. -/
theorem stripMarkdown_keeps_fence_content :
    stripMarkdown "```js\nsecret\n```" = "js\nsecret" ∧
      containsSubS (stripMarkdown "```js\nsecret\n```") "secret" = true := by
  constructor <;> rfl

/-- C2 (amended): `stripMarkdown` does not drop fenced code blocks; because
the inline-code rule runs before the fenced-code rule, the backtick fences
are stripped and the language token and content remain.  For a document that
is exactly one fenced block over lowercase text, the output is the language
token, a newline, and the content. -/
theorem stripMarkdown_unwraps_fenced_block (L C : String)
    (hLne : L.data ≠ []) (hL : ∀ c ∈ L.data, isLowerAz c = true)
    (hCne : C.data ≠ []) (hC : ∀ c ∈ C.data, isLowerAz c = true) :
    stripMarkdown ("```" ++ L ++ "\n" ++ C ++ "\n```") = L ++ "\n" ++ C := by
  have hdata : ("```" ++ L ++ "\n" ++ C ++ "\n```").data =
      '`' :: '`' :: '`' ::
        (L.data ++ '\n' :: (C.data ++ '\n' :: '`' :: '`' :: ['`'])) := by
    simp [data_append]
  have hP2 : ∀ c ∈ L.data ++ '\n' :: (C.data ++ ['\n']),
      isLowerAz c = true ∨ c = '\n' := by
    intro c hc
    rcases List.mem_append.mp hc with h1 | h1
    · exact Or.inl (hL c h1)
    · rcases List.mem_cons.mp h1 with h2 | h2
      · exact Or.inr h2
      · rcases List.mem_append.mp h2 with h3 | h3
        · exact Or.inl (hC c h3)
        · rcases List.mem_cons.mp h3 with h4 | h4
          · exact Or.inr h4
          · exact absurd h4 (List.not_mem_nil c)
  have hP : ∀ c ∈ '`' :: '`' :: '`' ::
      (L.data ++ '\n' :: (C.data ++ '\n' :: '`' :: '`' :: ['`'])),
      isLowerAz c = true ∨ c = '\n' ∨ c = '`' := by
    intro c hc
    rcases List.mem_cons.mp hc with h1 | h1
    · exact Or.inr (Or.inr h1)
    rcases List.mem_cons.mp h1 with h2 | h2
    · exact Or.inr (Or.inr h2)
    rcases List.mem_cons.mp h2 with h3 | h3
    · exact Or.inr (Or.inr h3)
    rcases List.mem_append.mp h3 with h4 | h4
    · exact Or.inl (hL c h4)
    rcases List.mem_cons.mp h4 with h5 | h5
    · exact Or.inr (Or.inl h5)
    rcases List.mem_append.mp h5 with h6 | h6
    · exact Or.inl (hC c h6)
    rcases List.mem_cons.mp h6 with h7 | h7
    · exact Or.inr (Or.inl h7)
    rcases List.mem_cons.mp h7 with h8 | h8
    · exact Or.inr (Or.inr h8)
    rcases List.mem_cons.mp h8 with h9 | h9
    · exact Or.inr (Or.inr h9)
    rcases List.mem_cons.mp h9 with h10 | h10
    · exact Or.inr (Or.inr h10)
    exact absurd h10 (List.not_mem_nil c)
  have hne3 : ∀ {x : Char},
      ((isLowerAz x || decide (x = '\n')) || decide (x = '`')) = false →
      ∀ c ∈ '`' :: '`' :: '`' ::
        (L.data ++ '\n' :: (C.data ++ '\n' :: '`' :: '`' :: ['`'])), c ≠ x := by
    intro x hx c hc he
    rcases hP c hc with h | h | h
    · rw [he] at h; rw [h] at hx; simp at hx
    · rw [he] at h; subst h; exact absurd hx (by decide)
    · rw [he] at h; subst h; exact absurd hx (by decide)
  show String.mk (stripMarkdownL ("```" ++ L ++ "\n" ++ C ++ "\n```").data) = _
  rw [hdata]
  unfold stripMarkdownL
  rw [removeHeadingMarkers_id (hne3 (by decide))]
  rw [removeBold_id (hne3 (by decide))]
  rw [removeItalic_id (hne3 (by decide))]
  rw [removeStrike_id (hne3 (by decide))]
  rw [removeInlineCode_fence
    (fun c hc => lower_ne (hL c hc) (by decide))
    (fun c hc => lower_ne (hC c hc) (by decide))]
  rw [removeCodeBlocks_id (fun c hc => charclass2_ne (hP2 c hc) (by decide))]
  rw [removeLinksKeepText_id (fun c hc => charclass2_ne (hP2 c hc) (by decide))]
  rw [removeImagesKeepAlt_id (fun c hc => charclass2_ne (hP2 c hc) (by decide))]
  rw [removeListMarkers_id (fun c hc =>
    ⟨charclass2_ne (hP2 c hc) (by decide), charclass2_ne (hP2 c hc) (by decide),
      charclass2_ne (hP2 c hc) (by decide)⟩)]
  rw [removeNumListMarkers_id (fun c hc => by
    rcases hP2 c hc with h | h
    · exact lower_not_digit h
    · subst h; rfl)]
  rw [removeBlockquoteMarkers_id (fun c hc => charclass2_ne (hP2 c hc) (by decide))]
  show String.mk (jsTrimL (scanRepl collapseNlF _)) = _
  rw [show scanRepl collapseNlF (L.data ++ '\n' :: (C.data ++ ['\n'])) =
    scanReplGo collapseNlF (L.data ++ '\n' :: (C.data ++ ['\n'])).length true
      (L.data ++ '\n' :: (C.data ++ ['\n'])) from rfl]
  rw [collapseBlankLines_id_okNl _ _ _ (okNl_sep hL hCne hC)]
  rw [jsTrimL_sep hLne hL hCne hC]
  show String.mk (L.data ++ '\n' :: C.data) = L ++ "\n" ++ C
  have hgoal : (L ++ "\n" ++ C).data = L.data ++ '\n' :: C.data := by
    simp [data_append]
  rw [← hgoal]

/-- C2 witness. -/
theorem stripMarkdown_unwraps_fenced_block_witness :
    stripMarkdown ("```" ++ "js" ++ "\n" ++ "secret" ++ "\n```") =
      "js" ++ "\n" ++ "secret" :=
  stripMarkdown_unwraps_fenced_block "js" "secret" (by decide) (by decide)
    (by decide) (by decide)

/-!
## Claim C5 — `getFirstParagraph`
-/

lemma find?_split {α : Type} {p : α → Bool} {l : List α} {a : α}
    (h : l.find? p = some a) :
    ∃ u v, l = u ++ a :: v ∧ (∀ x ∈ u, p x = false) ∧ p a = true := by
  induction l with
  | nil => simp at h
  | cons x xs ih =>
    cases hp : p x with
    | true =>
      rw [List.find?_cons_of_pos _ hp] at h
      injection h with h
      subst h
      exact ⟨[], xs, rfl, by simp, hp⟩
    | false =>
      rw [List.find?_cons_of_neg _ (by simp [hp])] at h
      obtain ⟨u, v, hl, hu, ha⟩ := ih h
      exact ⟨x :: u, v, by simp [hl], by
        intro y hy
        rcases List.mem_cons.mp hy with hy | hy
        · subst hy; exact hp
        · exact hu y hy, ha⟩

/-- C5 counterexample: the returned block keeps its trailing whitespace — it
is not trimmed. -/
theorem getFirstParagraph_not_trimmed :
    getFirstParagraph "a \n\nb" = "a " ∧ jsTrim "a " = "a" ∧
      ("a " : String) ≠ "a" := by
  refine ⟨rfl, rfl, by decide⟩

/-- C5 (amended): `getFirstParagraph` returns the first block (after markup
removal and blank-line splitting) whose *trimmed* form is nonempty, but
returns that block as is, without trimming it; it returns the empty string
when every block trims to nothing. -/
theorem getFirstParagraph_first_nonblank_block (t : String) :
    (getFirstParagraph t = "" ∧ ∀ b ∈ paragraphBlocks t, jsTrim b = "") ∨
    (∃ u v, paragraphBlocks t = u ++ getFirstParagraph t :: v ∧
      (∀ b ∈ u, jsTrim b = "") ∧ jsTrim (getFirstParagraph t) ≠ "") := by
  unfold getFirstParagraph
  cases hf : (paragraphBlocks t).find? (fun p => !(jsTrimL p.data).isEmpty) with
  | none =>
    left
    constructor
    · rfl
    · intro b hb
      have hb' := List.find?_eq_none.mp hf b hb
      simp only [Bool.not_eq_true', Bool.not_eq_false] at hb'
      have : jsTrimL b.data = [] := List.isEmpty_iff.mp hb'
      show String.mk (jsTrimL b.data) = ""
      rw [this]
  | some a =>
    right
    obtain ⟨u, v, hl, hu, ha⟩ := find?_split hf
    refine ⟨u, v, by simpa using hl, ?_, ?_⟩
    · intro b hb
      have := hu b hb
      simp only [Bool.not_eq_false'] at this
      have hnil : jsTrimL b.data = [] := List.isEmpty_iff.mp this
      show String.mk (jsTrimL b.data) = ""
      rw [hnil]
    · simp only [Option.getD_some]
      intro hcontra
      have : jsTrimL a.data = [] := congrArg String.data hcontra
      simp [List.isEmpty_iff.mpr this] at ha

/-!
## Claim C4 — `filenameToSlug` idempotence
-/

lemma digit_not_ws {c : Char} (h : c.isDigit = true) : isWs c = false := by
  cases hw : isWs c
  · rfl
  · exfalso
    have h6 : c = ' ' ∨ c = '\t' ∨ c = '\n' ∨ c = '\r' ∨ c = '\x0b' ∨
        c = '\x0c' := by
      simpa [isWs, or_assoc] using hw
    rcases h6 with h' | h' | h' | h' | h' | h' <;>
      (subst h'; exact absurd h (by decide))

lemma slugChar_cases {c : Char} (h : slugChar c = true) :
    isLowerAz c = true ∨ c.isDigit = true ∨ c = '-' := by
  simpa [slugChar, Bool.or_eq_true, or_assoc] using h

lemma slugChar_not_ws {c : Char} (h : slugChar c = true) : isWs c = false := by
  rcases slugChar_cases h with h' | h' | h'
  · exact lower_not_ws h'
  · exact digit_not_ws h'
  · subst h'; rfl

lemma slugChar_ne {c x : Char} (h : slugChar c = true)
    (hx : slugChar x = false) : c ≠ x := by
  intro he
  rw [he] at h
  rw [h] at hx
  simp at hx

lemma keepSlug_of_slugChar {c : Char} (h : slugChar c = true) :
    keepSlug c = true := by
  rcases slugChar_cases h with h' | h' | h' <;> simp [keepSlug, h']

lemma keepSlug_not_ws_slugChar {c : Char} (h : keepSlug c = true)
    (hw : isWs c = false) : slugChar c = true := by
  have h4 : isLowerAz c = true ∨ c.isDigit = true ∨ isWs c = true ∨ c = '-' := by
    simpa [keepSlug, Bool.or_eq_true, or_assoc] using h
  rcases h4 with h' | h' | h' | h'
  · simp [slugChar, h']
  · simp [slugChar, h']
  · rw [h'] at hw; cases hw
  · simp [slugChar, h']

lemma slugChar_toLower_id {c : Char} (h : slugChar c = true) :
    jsToLower c = c := by
  rcases slugChar_cases h with h' | h' | h'
  · have hnot : ¬('A' ≤ c ∧ c ≤ 'Z') := by
      rintro ⟨_, hZ⟩
      simp only [isLowerAz, Bool.and_eq_true, decide_eq_true_eq] at h'
      have h1 : ('a' : Char).val ≤ c.val := h'.1
      have h2 : c.val ≤ ('Z' : Char).val := hZ
      rw [UInt32.le_def, BitVec.le_def] at h1 h2
      simp at h1 h2
      omega
    simp [jsToLower, hnot]
  · have hnot : ¬('A' ≤ c ∧ c ≤ 'Z') := by
      rintro ⟨hA, _⟩
      simp only [Char.isDigit, Bool.and_eq_true, decide_eq_true_eq] at h'
      have h1 : ('A' : Char).val ≤ c.val := hA
      have h2 : c.val ≤ (57 : UInt32) := h'.2
      rw [UInt32.le_def, BitVec.le_def] at h1 h2
      simp at h1 h2
      omega
    simp [jsToLower, hnot]
  · subst h'; rfl

lemma map_id_of {f : Char → Char} {l : List Char}
    (h : ∀ c ∈ l, f c = c) : l.map f = l := by
  induction l with
  | nil => rfl
  | cons c cs ih =>
    simp only [List.map_cons, h c (by simp), List.cons.injEq, true_and]
    exact ih fun c hc => h c (by simp [hc])

lemma dropWhile_eq_self_of_all_neg {p : Char → Bool} {l : List Char}
    (h : ∀ c ∈ l, p c = false) : l.dropWhile p = l := by
  cases l with
  | nil => rfl
  | cons c cs => rw [List.dropWhile_cons, if_neg (by simp [h c (by simp)])]

lemma jsTrimL_id_no_ws {l : List Char} (h : ∀ c ∈ l, isWs c = false) :
    jsTrimL l = l := by
  unfold jsTrimL
  rw [dropWhile_eq_self_of_all_neg h,
    dropWhile_eq_self_of_all_neg (fun c hc => h c (by simpa using hc))]
  simp

lemma mem_jsTrimL {c : Char} {l : List Char} (h : c ∈ jsTrimL l) : c ∈ l := by
  unfold jsTrimL at h
  have h1 := List.mem_reverse.mp h
  have h2 := (List.dropWhile_sublist isWs).subset h1
  have h3 := List.mem_reverse.mp h2
  exact (List.dropWhile_sublist isWs).subset h3

lemma wsToHyphen_id {l : List Char} (h : ∀ c ∈ l, isWs c = false) :
    wsToHyphen l = l := by
  induction l with
  | nil => rfl
  | cons c1 cs ih =>
    cases cs with
    | nil => simp [wsToHyphen, h c1 (by simp)]
    | cons c2 rest =>
      have h1 : isWs c1 = false := h c1 (by simp)
      simp only [wsToHyphen, h1, Bool.false_eq_true, false_and, if_false]
      exact congrArg (c1 :: ·) (ih fun c hc => h c (by simp [hc]))

lemma wsToHyphen_chars {l : List Char} (h : ∀ c ∈ l, keepSlug c = true) :
    ∀ c ∈ wsToHyphen l, slugChar c = true := by
  induction l with
  | nil => intro c hc; cases hc
  | cons c1 cs ih =>
    cases cs with
    | nil =>
      intro c hc
      by_cases hw : isWs c1 = true
      · simp only [wsToHyphen, hw, if_true, List.mem_singleton] at hc
        subst hc; rfl
      · have hw' : isWs c1 = false := by simpa using hw
        simp only [wsToHyphen, hw', Bool.false_eq_true, if_false,
          List.mem_singleton] at hc
        subst hc
        exact keepSlug_not_ws_slugChar (h _ (by simp)) hw'
    | cons c2 rest =>
      intro c hc
      by_cases hA : isWs c1 = true ∧ isWs c2 = true
      · rw [show wsToHyphen (c1 :: c2 :: rest) = wsToHyphen (c2 :: rest) by
          simp only [wsToHyphen]; rw [if_pos ⟨hA.1, hA.2⟩]] at hc
        exact ih (fun x hx => h x (by simp [List.mem_cons.mp hx])) c hc
      · rw [show wsToHyphen (c1 :: c2 :: rest) =
          (if isWs c1 then '-' else c1) :: wsToHyphen (c2 :: rest) by
          simp only [wsToHyphen]; rw [if_neg (by simpa using hA)]] at hc
        rcases List.mem_cons.mp hc with hc1 | hc1
        · subst hc1
          by_cases hw : isWs c1 = true
          · simp only [hw, if_true]; decide
          · have hw' : isWs c1 = false := by simpa using hw
            simp only [hw', Bool.false_eq_true, if_false]
            exact keepSlug_not_ws_slugChar (h c1 (by simp)) hw'
        · exact ih (fun x hx => h x (by simp [List.mem_cons.mp hx])) c hc1

lemma mem_collapse {c : Char} : ∀ {l : List Char},
    c ∈ collapseHyphens l → c ∈ l := by
  intro l
  induction l with
  | nil => intro h; cases h
  | cons c1 cs ih =>
    cases cs with
    | nil => intro h; exact h
    | cons c2 rest =>
      intro h
      by_cases hA : c1 = '-' ∧ c2 = '-'
      · rw [show collapseHyphens (c1 :: c2 :: rest) =
          collapseHyphens (c2 :: rest) by
          simp only [collapseHyphens]; rw [if_pos hA]] at h
        exact List.mem_cons_of_mem _ (ih h)
      · rw [show collapseHyphens (c1 :: c2 :: rest) =
          c1 :: collapseHyphens (c2 :: rest) by
          simp only [collapseHyphens]; rw [if_neg hA]] at h
        rcases List.mem_cons.mp h with h1 | h1
        · subst h1; simp
        · exact List.mem_cons_of_mem _ (ih h1)

lemma head_collapse (c : Char) (cs : List Char) :
    ∃ t, collapseHyphens (c :: cs) = c :: t := by
  induction cs generalizing c with
  | nil => exact ⟨[], rfl⟩
  | cons c2 rest ih =>
    by_cases hA : c = '-' ∧ c2 = '-'
    · obtain ⟨t, ht⟩ := ih c2
      refine ⟨t, ?_⟩
      rw [show collapseHyphens (c :: c2 :: rest) =
        collapseHyphens (c2 :: rest) by
        simp only [collapseHyphens]; rw [if_pos hA]]
      rw [ht, hA.1, hA.2]
    · exact ⟨collapseHyphens (c2 :: rest), by
        simp only [collapseHyphens]; rw [if_neg hA]⟩

lemma collapse_collapse : ∀ (n : Nat) (l : List Char), l.length ≤ n →
    collapseHyphens (collapseHyphens l) = collapseHyphens l := by
  intro n
  induction n with
  | zero =>
    intro l hl
    have : l = [] := List.eq_nil_of_length_eq_zero (Nat.le_zero.mp hl)
    subst this; rfl
  | succ n ih =>
    intro l hl
    cases l with
    | nil => rfl
    | cons c1 cs =>
      cases cs with
      | nil => rfl
      | cons c2 rest =>
        by_cases hA : c1 = '-' ∧ c2 = '-'
        · rw [show collapseHyphens (c1 :: c2 :: rest) =
            collapseHyphens (c2 :: rest) by
            simp only [collapseHyphens]; rw [if_pos hA]]
          exact ih (c2 :: rest) (by simp at hl ⊢; omega)
        · rw [show collapseHyphens (c1 :: c2 :: rest) =
            c1 :: collapseHyphens (c2 :: rest) by
            simp only [collapseHyphens]; rw [if_neg hA]]
          obtain ⟨t, ht⟩ := head_collapse c2 rest
          rw [ht]
          have hidem : collapseHyphens (c2 :: t) = c2 :: t := by
            have h2 := ih (c2 :: rest) (by simp at hl ⊢; omega)
            rw [ht] at h2
            exact h2
          rw [show collapseHyphens (c1 :: c2 :: t) =
            c1 :: collapseHyphens (c2 :: t) by
            simp only [collapseHyphens]; rw [if_neg hA]]
          rw [hidem]

lemma removeExtension_no_dot {l : List Char} (h : ∀ c ∈ l, c ≠ '.') :
    removeExtension l = l := by
  simp only [removeExtension]
  split
  · next heq1 _ =>
    exfalso
    have hmem : '.' ∈ l.reverse := mem_of_dropWhile_eq_cons heq1
    exact h '.' (List.mem_reverse.mp hmem) rfl
  · rfl

lemma removeExtension_append {x e : List Char} (he : e ≠ [])
    (hext : ∀ c ∈ e, extChar c = true) :
    removeExtension (x ++ '.' :: e) = x := by
  obtain ⟨y, ys, hrev⟩ : ∃ y ys, e.reverse = y :: ys := by
    cases hr : e.reverse with
    | nil => exact absurd (by simpa using congrArg List.reverse hr) he
    | cons y ys => exact ⟨y, ys, rfl⟩
  have hrevall : ∀ c ∈ e.reverse, extChar c = true :=
    fun c hc => hext c (List.mem_reverse.mp hc)
  have hR : (x ++ '.' :: e).reverse = e.reverse ++ '.' :: x.reverse := by simp
  have htake : (e.reverse ++ '.' :: x.reverse).takeWhile extChar = e.reverse :=
    takeWhile_append_all hrevall (by decide)
  have hdropE : (e.reverse ++ '.' :: x.reverse).dropWhile extChar =
      '.' :: x.reverse :=
    dropWhile_append_all hrevall (by decide)
  simp only [removeExtension]
  rw [hR, htake, hdropE, hrev]
  simp

lemma extensionOf_cases (l : List Char) :
    extensionOf l = [] ∨ ∃ e, extensionOf l = '.' :: e ∧ e ≠ [] ∧
      ∀ c ∈ e, extChar c = true := by
  simp only [extensionOf]
  split
  · next heq1 heq2 =>
    right
    refine ⟨(l.reverse.takeWhile extChar).reverse, rfl, ?_, ?_⟩
    · rw [heq2]; simp
    · intro c hc
      have hm : c ∈ l.reverse.takeWhile extChar := List.mem_reverse.mp hc
      exact List.mem_takeWhile_imp hm
  · left; rfl

/-- The trailing trim of `filenameToSlug` is a no-op: slug characters are
never whitespace. -/
lemma slugL_core (l : List Char) :
    filenameToSlugL l = collapseHyphens (wsToHyphen
      ((((removeExtension l).map jsToLower).map
        (fun c => if c = '_' then '-' else c)).filter keepSlug)) := by
  unfold filenameToSlugL
  apply jsTrimL_id_no_ws
  intro c hc
  have h1 := mem_collapse hc
  have h2 : slugChar c = true :=
    wsToHyphen_chars (fun x hx => List.of_mem_filter hx) c h1
  exact slugChar_not_ws h2

lemma slugL_chars {l : List Char} : ∀ c ∈ filenameToSlugL l, slugChar c = true := by
  intro c hc
  rw [slugL_core] at hc
  exact wsToHyphen_chars (fun x hx => List.of_mem_filter hx) c (mem_collapse hc)

/-- Every pipeline stage is the identity on an all-slug-character list whose
hyphen runs are already collapsed. -/
lemma slugL_of_clean {Y m : List Char} (hY : removeExtension Y = m)
    (hm : ∀ c ∈ m, slugChar c = true)
    (hcol : collapseHyphens m = m) : filenameToSlugL Y = m := by
  unfold filenameToSlugL
  rw [hY]
  rw [map_id_of (fun c hc => slugChar_toLower_id (hm c hc))]
  rw [map_id_of (fun c hc => if_neg (slugChar_ne (hm c hc) (by decide)))]
  rw [List.filter_eq_self.mpr (fun c hc => keepSlug_of_slugChar (hm c hc))]
  rw [wsToHyphen_id (fun c hc => slugChar_not_ws (hm c hc))]
  rw [hcol]
  exact jsTrimL_id_no_ws (fun c hc => slugChar_not_ws (hm c hc))

/-- C4: `filenameToSlug` is idempotent — re-slugging a slug with its original
extension re-appended (or with no extension) is a no-op. -/
theorem filenameToSlug_idempotent (F : String) :
    filenameToSlug (filenameToSlug F ++ extensionOfS F) = filenameToSlug F ∧
    filenameToSlug (filenameToSlug F) = filenameToSlug F := by
  have hmchars : ∀ c ∈ filenameToSlugL F.data, slugChar c = true := slugL_chars
  have hmcol : collapseHyphens (filenameToSlugL F.data) =
      filenameToSlugL F.data := by
    rw [slugL_core]
    exact collapse_collapse _ _ le_rfl
  have hnodot : ∀ c ∈ filenameToSlugL F.data, c ≠ '.' :=
    fun c hc => slugChar_ne (hmchars c hc) (by decide)
  have hpart2 : filenameToSlugL (filenameToSlugL F.data) =
      filenameToSlugL F.data :=
    slugL_of_clean (removeExtension_no_dot hnodot) hmchars hmcol
  have hpart1 : filenameToSlugL (filenameToSlugL F.data ++ extensionOf F.data) =
      filenameToSlugL F.data := by
    rcases extensionOf_cases F.data with hext | ⟨e, hext, hene, hechars⟩
    · rw [hext, List.append_nil]
      exact hpart2
    · rw [hext]
      exact slugL_of_clean (removeExtension_append hene hechars) hmchars hmcol
  constructor
  · show String.mk (filenameToSlugL (filenameToSlug F ++ extensionOfS F).data) = _
    have hdf : (filenameToSlug F ++ extensionOfS F).data =
        filenameToSlugL F.data ++ extensionOf F.data := rfl
    rw [hdf, hpart1]
    rfl
  · show String.mk (filenameToSlugL (filenameToSlug F).data) = _
    have hdf : (filenameToSlug F).data = filenameToSlugL F.data := rfl
    rw [hdf, hpart2]
    rfl

end MdUtils
